import Mathlib

/-!
Verification of the kebabify case-conversion and import-rewriting tool.

The Rust source is embedded shallowly: strings are lists of Unicode scalar
values (`List Char`), and every function below mirrors the control flow of the
corresponding Rust function in `src/main.rs`.

Character-class modelling note: the Rust code uses `char::is_uppercase` and
`char::to_lowercase` (Unicode-aware) and the regex class `\s`.  This
development uses two restrictions of them, each exact on its domain.  The
ASCII model (`isUp` is `A`..`Z`, `lowerFirst` shifts `A`..`Z` by 32 and is
the identity elsewhere, matching the first scalar of `to_lowercase`, `isWs`
is the ASCII whitespace class) is exact on ASCII input.  The extended model
(`isUpU`, `lowerFirstU`, and the `...U` copies of the converters and the
rewriter built from them) additionally covers U+1D400 MATHEMATICAL BOLD
CAPITAL A, an uppercase letter for which `to_lowercase` returns its input
unchanged; it is exact on ASCII input extended by that scalar, and exhibits
that the uppercase-elimination closures fail on uncased uppercase letters.
-/

set_option maxRecDepth 20000

/-- Model of `char::is_uppercase`, restricted to ASCII. -/
def isUp (c : Char) : Bool := decide (65 ≤ c.toNat ∧ c.toNat ≤ 90)

/-- Model of `c.to_lowercase().next().unwrap()`, restricted to ASCII. -/
def lowerFirst (c : Char) : Char :=
  if h : 65 ≤ c.toNat ∧ c.toNat ≤ 90 then
    Char.ofNatAux (c.toNat + 32)
      (Or.inl (by omega))
  else c

/-- Model of `fn needs_conversion`: does the name contain an uppercase letter. -/
def needs_conversion (filename : List Char) : Bool := filename.any isUp

/-- The `enum Case` of the source. -/
inductive Case where
  | Pascal
  | Camel
  | Acronym
  | Kebab
deriving DecidableEq, Repr

/-- The scanning loop of `fn detect_case`, with the loop state
(`has_uppercase`, `prev_was_uppercase`, `consecutive_uppercase`,
`first_char_is_uppercase`, `first_char_seen`) passed explicitly. -/
def detectLoop : List Char → Bool → Bool → Nat → Bool → Bool → Case
  | [], hasUp, _, _, firstUp, _ =>
    if !hasUp then Case.Kebab else if firstUp then Case.Pascal else Case.Camel
  | c :: cs, hasUp, prevUp, consec, firstUp, firstSeen =>
    let firstUp' := if !firstSeen then isUp c else firstUp
    if isUp c then
      if prevUp then
        if consec + 1 ≥ 2 then Case.Acronym
        else detectLoop cs true true (consec + 1) firstUp' true
      else detectLoop cs true true 0 firstUp' true
    else detectLoop cs hasUp false 0 firstUp' true

/-- Model of `fn detect_case`. -/
def detect_case (s : List Char) : Case := detectLoop s false false 0 false false

/-- The tail of the loop of `fn pascal_to_kebab` (every character after the
first: uppercase becomes a dash plus its lowercase form). -/
def pascalRest : List Char → List Char
  | [] => []
  | c :: cs => (if isUp c then ['-', lowerFirst c] else [c]) ++ pascalRest cs

/-- Model of `fn pascal_to_kebab`. -/
def pascal_to_kebab : List Char → List Char
  | [] => []
  | c :: cs => lowerFirst c :: pascalRest cs

/-- The tail of the loop of `fn camel_to_kebab`; the Rust body is identical to
the Pascal one (the peekable iterator is never peeked). -/
def camelRest : List Char → List Char
  | [] => []
  | c :: cs => (if isUp c then ['-', lowerFirst c] else [c]) ++ camelRest cs

/-- Model of `fn camel_to_kebab`. -/
def camel_to_kebab : List Char → List Char
  | [] => []
  | c :: cs => lowerFirst c :: camelRest cs

/-- The loop of `fn acronym_to_kebab`: `buf` is the pending `acronym` buffer of
uppercase letters and `prevLower` the `prev_lower` flag. -/
def acronymLoop : List Char → List Char → Bool → List Char
  | [], buf, prevLower =>
    if buf ≠ [] then (if prevLower then ['-'] else []) ++ buf.map lowerFirst
    else []
  | c :: cs, buf, prevLower =>
    if isUp c then
      (if buf ≠ [] ∧ prevLower then ['-'] else []) ++ acronymLoop cs (buf ++ [c]) false
    else
      (if buf ≠ [] then buf.map lowerFirst else []) ++ [c] ++ acronymLoop cs [] true

/-- Model of `fn acronym_to_kebab`. -/
def acronym_to_kebab (s : List Char) : List Char := acronymLoop s [] false

/-- Model of `fn pascal_to_kebab_smart` (the SmartConverter entry point). -/
def pascal_to_kebab_smart (filename : List Char) : List Char :=
  match detect_case filename with
  | Case.Kebab => filename
  | Case.Pascal => pascal_to_kebab filename
  | Case.Camel => camel_to_kebab filename
  | Case.Acronym => acronym_to_kebab filename

/-- Does the name contain two consecutive uppercase letters anywhere (the
condition named by the specification of the classifier). -/
def hasRun2 : List Char → Bool
  | a :: b :: t => (isUp a && isUp b) || hasRun2 (b :: t)
  | _ => false

/-- Does the name contain three consecutive uppercase letters anywhere (the
condition the code actually tests for, since `consecutive_uppercase` must
reach 2). -/
def hasRun3 : List Char → Bool
  | a :: b :: c :: t => (isUp a && isUp b && isUp c) || hasRun3 (b :: c :: t)
  | _ => false

/-- Length of the maximal uppercase prefix of a name. -/
def upPref : List Char → Nat
  | [] => 0
  | c :: cs => if isUp c then upPref cs + 1 else 0

/-- Is the first character of a name uppercase. -/
def headUp : List Char → Bool
  | [] => false
  | c :: _ => isUp c

/-- The double-quote character. -/
def dq : Char := Char.ofNat 34

/-- The single-quote character. -/
def squote : Char := Char.ofNat 39

/-- Membership in the regex quote class. -/
def isQuote (c : Char) : Bool := c = dq || c = squote

/-- The regex class used by the whitespace escapes of the import pattern,
restricted to ASCII. -/
def isWs (c : Char) : Bool :=
  c = ' ' || c = '\t' || c = '\n' || c = '\r' || c = Char.ofNat 11 || c = Char.ofNat 12

/-- Model of `str::split(sep)`: split at every separator, keeping empty
pieces, so the empty string yields one empty piece. -/
def splitOnChar (sep : Char) : List Char → List (List Char)
  | [] => [[]]
  | c :: t =>
    if c = sep then [] :: splitOnChar sep t
    else (c :: (splitOnChar sep t).headI) :: (splitOnChar sep t).tail

/-- Model of `Vec::join` on string pieces with single-character separator. -/
def joinSep (sep : Char) : List (List Char) → List Char
  | [] => []
  | [x] => x
  | x :: xs => x ++ sep :: joinSep sep xs

/-- The per-segment closure inside `fn update_imports`: dot segments are kept,
a segment with a dot has its first-dot prefix converted when it needs
conversion with the remainder kept verbatim, and a dotless segment is
converted whole when it needs conversion.  The second component is the
contribution to the `changes` counter. -/
def processSegment (seg : List Char) : List Char × Nat :=
  if seg = ['.'] ∨ seg = ['.', '.'] then (seg, 0)
  else
    let parts := splitOnChar '.' seg
    if 1 < parts.length then
      let name := parts.headI
      let ext := joinSep '.' parts.tail
      if needs_conversion name then (pascal_to_kebab_smart name ++ '.' :: ext, 1)
      else (seg, 0)
    else
      if needs_conversion seg then (pascal_to_kebab_smart seg, 1) else (seg, 0)

/-- The per-specifier body of `fn update_imports`: split the path on slashes,
process every segment, rejoin, and sum the counter contributions. -/
def processPath (path : List Char) : List Char × Nat :=
  let outs := (splitOnChar '/' path).map processSegment
  (joinSep '/' (outs.map Prod.fst), (outs.map Prod.snd).sum)

/-- The keyword of a static import. -/
def importL : List Char := String.toList "import"

/-- The optional marker of a type-only import. -/
def typeL : List Char := String.toList "type"

/-- The keyword separating the imported names from the specifier. -/
def fromL : List Char := String.toList "from"

/-- The opening of a dynamic require. -/
def requireL : List Char := String.toList "require("

/-- Match a literal word at the head of the input, returning the rest. -/
def parseLit : List Char → List Char → Option (List Char)
  | [], l => some l
  | _ :: _, [] => none
  | a :: lit, c :: l => if c = a then parseLit lit l else none

/-- Match one or more whitespace characters greedily. -/
def parseWsPlus (l : List Char) : Option (List Char × List Char) :=
  let w := l.takeWhile isWs
  if w = [] then none else some (w, l.dropWhile isWs)

/-- The optional type marker of the import pattern, committed when the word
and at least one whitespace character follow.  Committing is faithful to the
backtracking optional group: the later search for the from keyword can never
begin inside the type word or its trailing whitespace, so both strategies
accept the same inputs with the same division. -/
def parseOptType (l : List Char) : List Char × List Char :=
  match parseLit typeL l with
  | some r =>
    match parseWsPlus r with
    | some (w, r2) => (typeL ++ w, r2)
    | none => ([], l)
  | none => ([], l)

/-- The from keyword, greedy whitespace, and an opening quote. -/
def parseFromQuote (l : List Char) : Option (List Char × Char × List Char) :=
  match parseLit fromL l with
  | some r =>
    match r.dropWhile isWs with
    | c :: rest => if isQuote c then some (fromL ++ r.takeWhile isWs, c, rest) else none
    | [] => none
  | none => none

/-- The lazy quantifier before the from keyword: at each position first try
the continuation, then consume one non-quote character; a quote stops the
search since the quantifier class excludes quotes. -/
def lazyFrom : List Char → Option (List Char × Char × List Char)
  | [] => none
  | c :: cs =>
    match parseFromQuote (c :: cs) with
    | some r => some r
    | none =>
      if isQuote c then none
      else
        match lazyFrom cs with
        | some (con, q, rest) => some (c :: con, q, rest)
        | none => none

/-- The path capture: one or more non-quote characters, greedy, then the
closing quote. -/
def parsePath (l : List Char) : Option (List Char × Char × List Char) :=
  let p := l.takeWhile (fun c => !isQuote c)
  if p = [] then none
  else
    match l.dropWhile (fun c => !isQuote c) with
    | c :: rest => some (p, c, rest)
    | [] => none

/-- The optional trailing close-paren or semicolon after the closing quote. -/
def parseOptSemi : List Char → List Char × List Char
  | [] => ([], [])
  | c :: rest => if c = ')' || c = ';' then ([c], rest) else ([], c :: rest)

/-- The static-import alternative of the pattern: the keyword, whitespace, the
optional type marker, the lazy stretch up to the from keyword, and the opening
quote, then the path capture, closing quote, and optional trailer.  Returns
(prefix capture, path capture, suffix capture, rest of input). -/
def branch1 (l : List Char) : Option (List Char × List Char × List Char × List Char) :=
  match parseLit importL l with
  | none => none
  | some r1 =>
    match parseWsPlus r1 with
    | none => none
    | some (w, r2) =>
      let tr := parseOptType r2
      match lazyFrom tr.2 with
      | none => none
      | some (con, q, r4) =>
        match parsePath r4 with
        | none => none
        | some (path, q2, r5) =>
          let sx := parseOptSemi r5
          some (importL ++ w ++ tr.1 ++ con ++ [q], path, q2 :: sx.1, sx.2)

/-- The require alternative of the pattern. -/
def branch2 (l : List Char) : Option (List Char × List Char × List Char × List Char) :=
  match parseLit requireL l with
  | none => none
  | some r1 =>
    match r1 with
    | [] => none
    | c :: r2 =>
      if isQuote c then
        match parsePath r2 with
        | none => none
        | some (path, q2, r3) =>
          let sx := parseOptSemi r3
          some (requireL ++ [c], path, q2 :: sx.1, sx.2)
      else none

/-- Try the two alternatives of the pattern at the current position, import
first. -/
def tryMatch (l : List Char) : Option (List Char × List Char × List Char × List Char) :=
  match branch1 l with
  | some m => some m
  | none => branch2 l

/-- The leftmost-first scan of `Regex::replace_all` inside
`fn update_imports`: at each position try the pattern; on a match rewrite the
path capture and continue after the match, otherwise keep the character and
move one position right.  Fuel bounds the recursion and never runs out when it
starts at the input length. -/
def scanF : Nat → List Char → List Char × Nat
  | 0, l => (l, 0)
  | _ + 1, [] => ([], 0)
  | n + 1, c :: cs =>
    match tryMatch (c :: cs) with
    | some (pre, path, suf, rest) =>
      let pr := processPath path
      let r := scanF n rest
      (pre ++ pr.1 ++ suf ++ r.1, pr.2 + r.2)
    | none =>
      let r := scanF n cs
      (c :: r.1, r.2)

/-- Model of `fn update_imports`: the rewritten text and the change count. -/
def update_imports (content : List Char) : List Char × Nat := scanF content.length content

/-- Line 1 of end-to-end scenario 1 of the specification. -/
def c3Line1 : List Char :=
  "import MyComponent from ".toList ++ [squote] ++ "./MyComponent.svelte".toList ++ [squote, ';']

/-- Line 2 of end-to-end scenario 1 of the specification. -/
def c3Line2 : List Char :=
  "import { Something } from ".toList ++ [squote]
    ++ "../ComponentLibrary/ButtonComponent".toList ++ [squote, ';']

/-- Line 3 of end-to-end scenario 1 of the specification. -/
def c3Line3 : List Char :=
  "const util = require(".toList ++ [squote] ++ "./UtilityFunctions".toList ++ [squote, ')', ';']

/-- Line 4 of end-to-end scenario 1 of the specification. -/
def c3Line4 : List Char :=
  "import { useGetCurrentPlan } from ".toList ++ [squote]
    ++ "./useGetCurrentPlan.svelte".toList ++ [squote, ';']

/-- Line 5 of end-to-end scenario 1 of the specification. -/
def c3Line5 : List Char :=
  "import type { Delimiter } from ".toList ++ [dq]
    ++ "components/Messages/StyledText.svelte".toList ++ [dq, ';']

/-- Line 6 of end-to-end scenario 1 of the specification. -/
def c3Line6 : List Char :=
  "import type { MessageHandler } from ".toList ++ [dq]
    ++ "./useMessageHandler.svelte".toList ++ [dq, ';']

/-- The six-line input text of end-to-end scenario 1. -/
def c3Input : List Char :=
  c3Line1 ++ '\n' :: c3Line2 ++ '\n' :: c3Line3 ++ '\n' :: c3Line4 ++ '\n' :: c3Line5
    ++ '\n' :: c3Line6

/-- Substring containment. -/
def infixCheck (pat : List Char) : List Char → Bool
  | [] => pat.isPrefixOf []
  | c :: t => pat.isPrefixOf (c :: t) || infixCheck pat t


/-- Model of the stem and extension decomposition of a path component, as
`Path::file_stem` and `Path::extension` compute it in `fn rename_file`: split
at the last dot, except that a name whose only dot is a leading dot has no
extension. -/
def splitStemExt (name : List Char) : List Char × Option (List Char) :=
  if (name.reverse.takeWhile (fun c => c ≠ '.')).length = name.length then (name, none)
  else if (name.reverse.takeWhile (fun c => c ≠ '.')).length + 1 = name.length then (name, none)
  else (name.take (name.length - (name.reverse.takeWhile (fun c => c ≠ '.')).length - 1),
        some (name.reverse.takeWhile (fun c => c ≠ '.')).reverse)

/-- The per-entry guard of `fn process_directory`: an entry is passed to
`fn rename_file` exactly when its whole file name needs conversion. -/
def shouldRename (filename : List Char) : Bool := needs_conversion filename

/-- The new base name computed by `fn rename_file`: the converted stem with
the original extension reattached, for files and directories alike. -/
def rename_target (filename : List Char) : List Char :=
  match splitStemExt filename with
  | (stem, some e) => pascal_to_kebab_smart stem ++ '.' :: e
  | (stem, none) => pascal_to_kebab_smart stem


/-- The maximal quote-free prefix of a text. -/
def firstGap (l : List Char) : List Char := l.takeWhile (fun c => !isQuote c)

/-- The quote characters of a text, in order. -/
def quotesOf (l : List Char) : List Char := l.filter isQuote

/-- The quote-free stretches of a text, split at every quote character. -/
def gapsQ : List Char → List (List Char)
  | [] => [[]]
  | c :: t => if isQuote c then [] :: gapsQ t else (c :: (gapsQ t).headI) :: (gapsQ t).tail

/-- Texts with the same quote skeleton up to stretch emptiness. -/
def EmpRel : List (List Char) → List (List Char) → Prop :=
  List.Forall₂ (fun a b => (a = [] ↔ b = []))

/-- MATHEMATICAL BOLD CAPITAL A (U+1D400): Unicode classifies it as an
uppercase letter (category Lu), while `to_lowercase` has no mapping for it
and returns it unchanged. -/
def uA : Char := Char.ofNat 119808

/-- Model of `char::is_uppercase` on the extended domain of ASCII plus
U+1D400, exact there: U+1D400 is an uppercase letter. -/
def isUpU (c : Char) : Bool :=
  decide ((65 ≤ c.toNat ∧ c.toNat ≤ 90) ∨ c.toNat = 119808)

/-- Model of `c.to_lowercase().next().unwrap()` on the extended domain of
ASCII plus U+1D400, exact there: U+1D400 has no lowercase mapping and is
returned unchanged. -/
def lowerFirstU (c : Char) : Char :=
  if h : 65 ≤ c.toNat ∧ c.toNat ≤ 90 then
    Char.ofNatAux (c.toNat + 32)
      (Or.inl (by omega))
  else c

/-- `fn needs_conversion` over the extended character model. -/
def needs_conversionU (filename : List Char) : Bool := filename.any isUpU

/-- The scanning loop of `fn detect_case` over the extended character model. -/
def detectLoopU : List Char → Bool → Bool → Nat → Bool → Bool → Case
  | [], hasUp, _, _, firstUp, _ =>
    if !hasUp then Case.Kebab else if firstUp then Case.Pascal else Case.Camel
  | c :: cs, hasUp, prevUp, consec, firstUp, firstSeen =>
    let firstUp' := if !firstSeen then isUpU c else firstUp
    if isUpU c then
      if prevUp then
        if consec + 1 ≥ 2 then Case.Acronym
        else detectLoopU cs true true (consec + 1) firstUp' true
      else detectLoopU cs true true 0 firstUp' true
    else detectLoopU cs hasUp false 0 firstUp' true

/-- `fn detect_case` over the extended character model. -/
def detect_caseU (s : List Char) : Case := detectLoopU s false false 0 false false

/-- The loop tail of `fn pascal_to_kebab` over the extended character model. -/
def pascalRestU : List Char → List Char
  | [] => []
  | c :: cs => (if isUpU c then ['-', lowerFirstU c] else [c]) ++ pascalRestU cs

/-- `fn pascal_to_kebab` over the extended character model. -/
def pascal_to_kebabU : List Char → List Char
  | [] => []
  | c :: cs => lowerFirstU c :: pascalRestU cs

/-- The loop tail of `fn camel_to_kebab` over the extended character model. -/
def camelRestU : List Char → List Char
  | [] => []
  | c :: cs => (if isUpU c then ['-', lowerFirstU c] else [c]) ++ camelRestU cs

/-- `fn camel_to_kebab` over the extended character model. -/
def camel_to_kebabU : List Char → List Char
  | [] => []
  | c :: cs => lowerFirstU c :: camelRestU cs

/-- The loop of `fn acronym_to_kebab` over the extended character model. -/
def acronymLoopU : List Char → List Char → Bool → List Char
  | [], buf, prevLower =>
    if buf ≠ [] then (if prevLower then ['-'] else []) ++ buf.map lowerFirstU
    else []
  | c :: cs, buf, prevLower =>
    if isUpU c then
      (if buf ≠ [] ∧ prevLower then ['-'] else []) ++ acronymLoopU cs (buf ++ [c]) false
    else
      (if buf ≠ [] then buf.map lowerFirstU else []) ++ [c] ++ acronymLoopU cs [] true

/-- `fn acronym_to_kebab` over the extended character model. -/
def acronym_to_kebabU (s : List Char) : List Char := acronymLoopU s [] false

/-- `fn pascal_to_kebab_smart` over the extended character model. -/
def pascal_to_kebab_smartU (filename : List Char) : List Char :=
  match detect_caseU filename with
  | Case.Kebab => filename
  | Case.Pascal => pascal_to_kebabU filename
  | Case.Camel => camel_to_kebabU filename
  | Case.Acronym => acronym_to_kebabU filename

/-- The per-segment closure of `fn update_imports` over the extended
character model. -/
def processSegmentU (seg : List Char) : List Char × Nat :=
  if seg = ['.'] ∨ seg = ['.', '.'] then (seg, 0)
  else
    let parts := splitOnChar '.' seg
    if 1 < parts.length then
      let name := parts.headI
      let ext := joinSep '.' parts.tail
      if needs_conversionU name then (pascal_to_kebab_smartU name ++ '.' :: ext, 1)
      else (seg, 0)
    else
      if needs_conversionU seg then (pascal_to_kebab_smartU seg, 1) else (seg, 0)

/-- The per-specifier body of `fn update_imports` over the extended character
model. -/
def processPathU (path : List Char) : List Char × Nat :=
  let outs := (splitOnChar '/' path).map processSegmentU
  (joinSep '/' (outs.map Prod.fst), (outs.map Prod.snd).sum)

/-- The scan of `Regex::replace_all` over the extended character model: the
pattern itself matches by quote and whitespace classes only, so `tryMatch` is
shared; only the path rewrite differs from `scanF`. -/
def scanFU : Nat → List Char → List Char × Nat
  | 0, l => (l, 0)
  | _ + 1, [] => ([], 0)
  | n + 1, c :: cs =>
    match tryMatch (c :: cs) with
    | some (pre, path, suf, rest) =>
      let pr := processPathU path
      let r := scanFU n rest
      (pre ++ pr.1 ++ suf ++ r.1, pr.2 + r.2)
    | none =>
      let r := scanFU n cs
      (c :: r.1, r.2)

/-- `fn update_imports` over the extended character model. -/
def update_importsU (content : List Char) : List Char × Nat :=
  scanFU content.length content

/-- An import line whose path is the single scalar U+1D400. -/
def c7uLine : List Char := String.toList "import x from " ++ dq :: uA :: (dq :: [';'])

/-- An ASCII import line with an uppercase path. -/
def c7wLine : List Char := String.toList "import A from " ++ dq :: 'X' :: (dq :: [';'])

theorem lowerFirst_toNat_of_up (c : Char) (h : 65 ≤ c.toNat ∧ c.toNat ≤ 90) :
    (lowerFirst c).toNat = c.toNat + 32 := by
  simp only [lowerFirst, dif_pos h]
  rfl

theorem isUp_lowerFirst (c : Char) : isUp (lowerFirst c) = false := by
  by_cases h : 65 ≤ c.toNat ∧ c.toNat ≤ 90
  · have := lowerFirst_toNat_of_up c h
    simp [isUp, this]
    omega
  · simp only [lowerFirst, dif_neg h]
    simp [isUp]
    omega

theorem hasRun3_cons_not {c : Char} (t : List Char) (h : isUp c = false) :
    hasRun3 (c :: t) = hasRun3 t := by
  match t with
  | [] => rfl
  | [b] => rfl
  | b :: d :: t' => simp [hasRun3, h]

theorem hasRun3_cons_up {c : Char} (t : List Char) (h : isUp c = true) :
    hasRun3 (c :: t) = (decide (2 ≤ upPref t) || hasRun3 t) := by
  match t with
  | [] => simp [hasRun3, upPref]
  | [b] =>
    by_cases hb : isUp b = true
    · simp [hasRun3, upPref, hb]
    · simp only [Bool.not_eq_true] at hb
      simp [hasRun3, upPref, hb]
  | b :: d :: t' =>
    by_cases hb : isUp b = true
    · by_cases hd : isUp d = true
      · simp [hasRun3, upPref, h, hb, hd]
      · simp only [Bool.not_eq_true] at hd
        simp [hasRun3, upPref, h, hb, hd]
    · simp only [Bool.not_eq_true] at hb
      simp [hasRun3, upPref, h, hb]

theorem detectLoop_char (s : List Char) : ∀ (hU p : Bool) (k : Nat) (fU : Bool),
    detectLoop s hU p k fU true =
      if (p && decide (2 ≤ k + upPref s) && decide (1 ≤ upPref s)) || hasRun3 s then Case.Acronym
      else if hU || s.any isUp then (if fU then Case.Pascal else Case.Camel)
      else Case.Kebab := by
  induction s with
  | nil =>
    intro hU p k fU
    simp [detectLoop, upPref, hasRun3]
    cases hU <;> simp
  | cons c t ih =>
    intro hU p k fU
    by_cases hc : isUp c = true
    · have hup : upPref (c :: t) = upPref t + 1 := by simp [upPref, hc]
      have hany : (c :: t).any isUp = true := by simp [hc]
      rw [hasRun3_cons_up t hc]
      by_cases hp : p = true
      · subst hp
        by_cases hk : k + 1 ≥ 2
        · have hstep : detectLoop (c :: t) hU true k fU true = Case.Acronym := by
            show (if isUp c then
                    if true then (if k + 1 ≥ 2 then Case.Acronym
                      else detectLoop t true true (k + 1) fU true)
                    else detectLoop t true true 0 fU true
                  else detectLoop t hU false 0 fU true) = Case.Acronym
            simp [hc, hk]
          rw [hstep]
          simp only [Bool.or_eq_true, Bool.and_eq_true, decide_eq_true_eq]
          have c1 : 2 ≤ k + upPref (c :: t) := by omega
          have c2 : 1 ≤ upPref (c :: t) := by omega
          simp [c1, c2]
        · have hk0 : k = 0 := by omega
          subst hk0
          have hstep : detectLoop (c :: t) hU true 0 fU true
              = detectLoop t true true 1 fU true := by
            show (if isUp c then
                    if true then (if 0 + 1 ≥ 2 then Case.Acronym
                      else detectLoop t true true (0 + 1) fU true)
                    else detectLoop t true true 0 fU true
                  else detectLoop t hU false 0 fU true) = _
            simp [hc, hk]
          rw [hstep, ih]
          simp only [Bool.or_eq_true, Bool.and_eq_true, decide_eq_true_eq, true_and, hany,
            Bool.or_true, if_true]
          by_cases h1 : 1 ≤ upPref t
          · have c1 : 2 ≤ 1 + upPref t := by omega
            have c2 : 2 ≤ 0 + upPref (c :: t) := by omega
            have c2' : 2 ≤ upPref (c :: t) := by omega
            have c3 : 1 ≤ upPref (c :: t) := by omega
            simp [c1, c2, c2', c3, h1]
          · have c1 : ¬ 2 ≤ 1 + upPref t := by omega
            have c2 : ¬ 2 ≤ 0 + upPref (c :: t) := by omega
            have c2' : ¬ 2 ≤ upPref (c :: t) := by omega
            have c4 : ¬ 2 ≤ upPref t := by omega
            simp [c1, c2, c2', c4, h1]
      · simp only [Bool.not_eq_true] at hp
        subst hp
        have hstep : detectLoop (c :: t) hU false k fU true
            = detectLoop t true true 0 fU true := by
          show (if isUp c then
                  if false then (if k + 1 ≥ 2 then Case.Acronym
                    else detectLoop t true true (k + 1) fU true)
                  else detectLoop t true true 0 fU true
                else detectLoop t hU false 0 fU true) = _
          simp [hc]
        rw [hstep, ih]
        simp only [Bool.or_eq_true, Bool.and_eq_true, decide_eq_true_eq, true_and, hany,
          Bool.or_true, if_true, Bool.false_and, false_and, false_or]
        by_cases h2 : 2 ≤ upPref t
        · have h1 : 1 ≤ upPref t := by omega
          have c1 : 2 ≤ 0 + upPref t := by omega
          simp [h1, h2, c1]
        · have c1 : ¬ 2 ≤ 0 + upPref t := by omega
          simp [h2, c1]
    · simp only [Bool.not_eq_true] at hc
      rw [hasRun3_cons_not t hc]
      have hup0 : upPref (c :: t) = 0 := by simp [upPref, hc]
      have hanyc : (c :: t).any isUp = t.any isUp := by simp [hc]
      have hstep : detectLoop (c :: t) hU p k fU true
          = detectLoop t hU false 0 fU true := by
        show (if isUp c then
                if p then (if k + 1 ≥ 2 then Case.Acronym
                  else detectLoop t true true (k + 1) fU true)
                else detectLoop t true true 0 fU true
              else detectLoop t hU false 0 fU true) = _
        simp [hc]
      rw [hstep, ih]
      simp only [Bool.or_eq_true, Bool.and_eq_true, decide_eq_true_eq, hanyc, hup0]
      have c2 : ¬ 1 ≤ (0 : Nat) := by omega
      simp [c2]

theorem detect_case_char (s : List Char) :
    detect_case s =
      if hasRun3 s then Case.Acronym
      else if s.any isUp then (if headUp s then Case.Pascal else Case.Camel)
      else Case.Kebab := by
  match s with
  | [] => rfl
  | c :: t =>
    by_cases hc : isUp c = true
    · have hup : upPref (c :: t) = upPref t + 1 := by simp [upPref, hc]
      have h1 : detect_case (c :: t) = detectLoop t true true 0 (isUp c) true := by
        show (if isUp c then
                if false then (if 0 + 1 ≥ 2 then Case.Acronym
                  else detectLoop t true true (0 + 1) (if !false then isUp c else false) true)
                else detectLoop t true true 0 (if !false then isUp c else false) true
              else detectLoop t false false 0 (if !false then isUp c else false) true) = _
        simp [hc]
      rw [h1, detectLoop_char, hasRun3_cons_up t hc]
      have hany : (c :: t).any isUp = true := by simp [hc]
      have hhead : headUp (c :: t) = true := hc
      simp only [Bool.or_eq_true, Bool.and_eq_true, decide_eq_true_eq, true_and, hany, hhead,
        if_true, hc, Bool.or_true]
      by_cases h2 : 2 ≤ upPref t
      · have c1 : 2 ≤ 0 + upPref t := by omega
        have c2 : 1 ≤ upPref t := by omega
        simp [h2, c1, c2]
      · have c1 : ¬ 2 ≤ 0 + upPref t := by omega
        simp [h2, c1]
    · simp only [Bool.not_eq_true] at hc
      have h1 : detect_case (c :: t) = detectLoop t false false 0 (isUp c) true := by
        show (if isUp c then
                if false then (if 0 + 1 ≥ 2 then Case.Acronym
                  else detectLoop t true true (0 + 1) (if !false then isUp c else false) true)
                else detectLoop t true true 0 (if !false then isUp c else false) true
              else detectLoop t false false 0 (if !false then isUp c else false) true) = _
        simp [hc]
      rw [h1, detectLoop_char, hasRun3_cons_not t hc]
      have hanyc : (c :: t).any isUp = t.any isUp := by simp [hc]
      have hhead : headUp (c :: t) = false := hc
      simp [hanyc, hhead, hc]

/-- C2 counterexample: the name ABc contains two consecutive uppercase letters,
yet the classifier does not return Acronym (it returns Pascal): the loop only
returns Acronym once `consecutive_uppercase` reaches 2, which needs a run of
three. -/
theorem c2_counterexample :
    hasRun2 ("ABc".toList) = true ∧ detect_case ("ABc".toList) ≠ Case.Acronym := by
  constructor
  · decide
  · decide

/-- C2 (amended): the classifier returns Acronym exactly when the name contains
three consecutive uppercase letters; otherwise Kebab when no uppercase letter
occurs, Pascal when the first character is uppercase, and Camel otherwise. -/
theorem c2_detect_case_spec (s : List Char) :
    detect_case s =
      if hasRun3 s then Case.Acronym
      else if s.any isUp then (if headUp s then Case.Pascal else Case.Camel)
      else Case.Kebab :=
  detect_case_char s

/-- C1: evaluating the converter on rows of the case-conversion table shows the
code disagrees with the table (and with the repository's own test
`test_pascal_to_kebab_smart`): the acronym algorithm never emits a dash, since
its dash condition requires `prev_lower` while the buffer is non-empty, which
the loop makes impossible. -/
theorem c1_acronym_divergence :
    pascal_to_kebab_smart ("XMLHTTPRequest".toList) = "xmlhttprequest".toList ∧
    pascal_to_kebab_smart ("MyXMLParser".toList) = "myxmlparser".toList ∧
    pascal_to_kebab_smart ("APIEndpoint".toList) = "apiendpoint".toList ∧
    pascal_to_kebab_smart ("XMLHTTPRequest".toList) ≠ "xml-http-request".toList ∧
    pascal_to_kebab_smart ("MyComponent".toList) = "my-component".toList ∧
    pascal_to_kebab_smart ("API".toList) = "api".toList := by
  refine ⟨by decide, by decide, by decide, by decide, by decide, by decide⟩

/-- C10: the converter is total on the empty base name, which the classifier
maps to Kebab, so the empty string is returned unchanged. -/
theorem c10_empty_string :
    pascal_to_kebab_smart ([] : List Char) = [] ∧
    detect_case ([] : List Char) = Case.Kebab := by
  constructor
  · rfl
  · rfl

theorem splitOnChar_ne_nil (sep : Char) (l : List Char) : splitOnChar sep l ≠ [] := by
  match l with
  | [] => simp [splitOnChar]
  | c :: t =>
    by_cases h : c = sep <;> simp [splitOnChar, h]

theorem splitOnChar_append_sep (sep : Char) (x y : List Char) (hx : ∀ c ∈ x, c ≠ sep) :
    splitOnChar sep (x ++ sep :: y) = x :: splitOnChar sep y := by
  induction x with
  | nil => simp [splitOnChar]
  | cons c x' ih =>
    have hc : c ≠ sep := hx c (by simp)
    have ih' := ih (fun d hd => hx d (by simp [hd]))
    simp only [List.cons_append, splitOnChar, if_neg hc, ih']
    simp [ih']

theorem joinSep_splitOnChar (sep : Char) (l : List Char) :
    joinSep sep (splitOnChar sep l) = l := by
  induction l with
  | nil => rfl
  | cons c t ih =>
    by_cases h : c = sep
    · subst h
      simp only [splitOnChar, if_pos rfl]
      obtain ⟨h1, rt, hrt⟩ : ∃ h1 rt, splitOnChar c t = h1 :: rt := by
        match hs : splitOnChar c t with
        | [] => exact absurd hs (splitOnChar_ne_nil c t)
        | h1 :: rt => exact ⟨h1, rt, rfl⟩
      rw [hrt]
      rw [hrt] at ih
      show ([] : List Char) ++ c :: joinSep c (h1 :: rt) = c :: t
      simp [ih]
    · simp only [splitOnChar, if_neg h]
      obtain ⟨h1, rt, hrt⟩ : ∃ h1 rt, splitOnChar sep t = h1 :: rt := by
        match hs : splitOnChar sep t with
        | [] => exact absurd hs (splitOnChar_ne_nil sep t)
        | h1 :: rt => exact ⟨h1, rt, rfl⟩
      rw [hrt]
      rw [hrt] at ih
      match rt with
      | [] =>
        show c :: h1 = c :: t
        simpa using ih
      | r2 :: rt' =>
        show (c :: h1) ++ sep :: joinSep sep (r2 :: rt') = c :: t
        simpa using ih

theorem processSegment_dotted (seg name tail : List Char)
    (hseg : seg = name ++ '.' :: tail)
    (hname : ∀ c ∈ name, c ≠ '.')
    (htail : tail ≠ []) :
    (processSegment seg).1 =
      if needs_conversion name then pascal_to_kebab_smart name ++ '.' :: tail else seg := by
  subst hseg
  by_cases hdot : name ++ '.' :: tail = ['.'] ∨ name ++ '.' :: tail = ['.', '.']
  · rcases hdot with h | h
    · exfalso
      match name with
      | [] => simp at h; exact htail h
      | c :: n' => simp at h
    · have hn : name = [] ∧ tail = ['.'] := by
        match name with
        | [] => simpa using h
        | [c] =>
          exfalso
          simp at h
          exact hname c (by simp) (by simp [h])
        | c :: d :: n' => simp at h
      rcases hn with ⟨hn1, hn2⟩
      subst hn1; subst hn2
      simp [processSegment, needs_conversion]
  · rw [processSegment, if_neg hdot]
    have hsplit := splitOnChar_append_sep '.' name tail hname
    simp only [hsplit]
    have hlen : 1 < (name :: splitOnChar '.' tail).length := by
      have := splitOnChar_ne_nil '.' tail
      match hs : splitOnChar '.' tail with
      | [] => exact absurd hs this
      | a :: b => simp
    rw [if_pos hlen]
    simp only [List.headI, List.tail_cons]
    rw [joinSep_splitOnChar]
    by_cases hn : needs_conversion name = true
    · simp [hn]
    · simp [hn]

/-- C3 counterexample: on the six-line input of end-to-end scenario 1 the
rewriter reports 8 changed segments, not the 9 the claim states (the
repository test that reports 9 has a seventh input line). -/
theorem c3_counterexample : (update_imports c3Input).2 ≠ 9 := by decide

/-- C3 (amended): on the six-line input of end-to-end scenario 1 the rewriter
reports exactly 8 changed segments, and the output text contains each of the
six expected kebab-case specifiers. -/
theorem c3_scenario1 :
    (update_imports c3Input).2 = 8 ∧
    infixCheck "./my-component.svelte".toList (update_imports c3Input).1 = true ∧
    infixCheck "component-library/button-component".toList (update_imports c3Input).1 = true ∧
    infixCheck "./utility-functions".toList (update_imports c3Input).1 = true ∧
    infixCheck "./use-get-current-plan.svelte".toList (update_imports c3Input).1 = true ∧
    infixCheck "components/messages/styled-text.svelte".toList (update_imports c3Input).1 = true ∧
    infixCheck "./use-message-handler.svelte".toList (update_imports c3Input).1 = true := by
  refine ⟨by decide, by decide, by decide, by decide, by decide, by decide, by decide⟩

/-- C8: for a path segment that splits at its first dot into a name and a
non-empty extension tail, the rewriter produces the converted name with the
tail kept verbatim when the name needs conversion, and the original segment
otherwise. -/
theorem c8_extension_preserved (seg name tail : List Char)
    (hseg : seg = name ++ '.' :: tail)
    (hname : ∀ c ∈ name, c ≠ '.')
    (htail : tail ≠ []) :
    (processSegment seg).1 =
      if needs_conversion name then pascal_to_kebab_smart name ++ '.' :: tail else seg :=
  processSegment_dotted seg name tail hseg hname htail

/-- C8 witness: the theorem applied to the concrete segment Foo.svelte. -/
theorem c8_witness :
    (processSegment ("Foo.svelte".toList)).1 =
      (if needs_conversion ("Foo".toList)
       then pascal_to_kebab_smart ("Foo".toList) ++ '.' :: "svelte".toList
       else "Foo.svelte".toList) :=
  c8_extension_preserved ("Foo.svelte".toList) ("Foo".toList) ("svelte".toList)
    (by decide) (by decide) (by decide)

theorem dropWhileHeadFalse {p : Char → Bool} {l : List Char} {d : Char} {R : List Char}
    (h : l.dropWhile p = d :: R) : p d = false := by
  induction l with
  | nil => simp [List.dropWhile] at h
  | cons a t ih =>
    rw [List.dropWhile_cons] at h
    by_cases hp : p a = true
    · rw [if_pos hp] at h
      exact ih h
    · rw [if_neg hp] at h
      cases h
      simpa using hp

theorem splitStemExt_none_eq (name s : List Char) (h : splitStemExt name = (s, none)) :
    s = name := by
  unfold splitStemExt at h
  split at h
  · cases h; rfl
  · split at h
    · cases h; rfl
    · simp at h

theorem splitStemExt_recon (name stem ext : List Char)
    (h : splitStemExt name = (stem, some ext)) :
    name = stem ++ '.' :: ext := by
  unfold splitStemExt at h
  split at h
  · simp at h
  · split at h
    · simp at h
    · rename_i h1 h2
      have hstem : name.take (name.length - (name.reverse.takeWhile (fun c => c ≠ '.')).length - 1) = stem := by
        cases h; rfl
      have hext : (name.reverse.takeWhile (fun c => c ≠ '.')).reverse = ext := by
        cases h; rfl
      set extR := name.reverse.takeWhile (fun c => c ≠ '.') with hextR
      have hne : name.reverse.dropWhile (fun c => c ≠ '.') ≠ [] := by
        intro hz
        apply h1
        have htd := List.takeWhile_append_dropWhile (p := fun c => decide (c ≠ '.')) (l := name.reverse)
        rw [hz, List.append_nil] at htd
        calc extR.length = name.reverse.length := by rw [hextR, htd]
        _ = name.length := by simp
      obtain ⟨d, R, hdR⟩ : ∃ d R, name.reverse.dropWhile (fun c => c ≠ '.') = d :: R := by
        match hx : name.reverse.dropWhile (fun c => c ≠ '.') with
        | [] => exact absurd hx hne
        | d :: R => exact ⟨d, R, rfl⟩
      have hd : d = '.' := by
        have := dropWhileHeadFalse hdR
        simpa using this
      subst hd
      have hdw : name.reverse = extR ++ '.' :: R := by
        rw [hextR, ← hdR]
        exact (List.takeWhile_append_dropWhile _ _).symm
      have hname : name = R.reverse ++ '.' :: extR.reverse := by
        have := congrArg List.reverse hdw
        simpa using this
      have hlen : name.length = extR.length + 1 + R.length := by
        have h4 := congrArg List.length hname
        simp only [List.length_append, List.length_cons, List.length_reverse] at h4
        omega
      have hcount : name.length - extR.length - 1 = R.reverse.length := by
        simp only [List.length_reverse]
        omega
      have hstem2 : stem = R.reverse := by
        rw [← hstem, hcount, hname, List.take_left]
      rw [hname, hstem2, ← hext]

theorem hasRun3_no_upper (s : List Char) (h : s.any isUp = false) : hasRun3 s = false := by
  induction s with
  | nil => rfl
  | cons c t ih =>
    simp only [List.any_cons, Bool.or_eq_false_iff] at h
    rw [hasRun3_cons_not t h.1]
    exact ih (by simpa using h.2)

theorem detect_case_no_upper (s : List Char) (h : s.any isUp = false) :
    detect_case s = Case.Kebab := by
  rw [detect_case_char s, hasRun3_no_upper s h]
  simp [h]

theorem smart_no_upper_id (s : List Char) (h : needs_conversion s = false) :
    pascal_to_kebab_smart s = s := by
  unfold pascal_to_kebab_smart
  rw [detect_case_no_upper s h]

/-- C4 counterexample: the entry foo.BAR has a stem with no uppercase letter,
yet the tree renamer does not skip it: the guard in `fn process_directory`
tests the whole file name, so a rename (to the identical name) is attempted. -/
theorem c4_counterexample :
    needs_conversion (splitStemExt ("foo.BAR".toList)).1 = false ∧
    shouldRename ("foo.BAR".toList) = true := by
  constructor
  · decide
  · decide

/-- C4 (amended): an entry is skipped exactly when its whole file name has no
uppercase letter; when only the stem is uppercase-free the computed rename
target equals the original name, so the attempted rename is a self-rename
rather than a skip. -/
theorem c4_skip_condition (name : List Char)
    (h : needs_conversion (splitStemExt name).1 = false) :
    rename_target name = name ∧ (shouldRename name = false ↔ needs_conversion name = false) := by
  constructor
  · unfold rename_target
    match hse : splitStemExt name with
    | (s, some e) =>
      rw [hse] at h
      have hrec := splitStemExt_recon name s e hse
      show pascal_to_kebab_smart s ++ '.' :: e = name
      rw [smart_no_upper_id s h]
      exact hrec.symm
    | (s, none) =>
      rw [hse] at h
      have hs := splitStemExt_none_eq name s hse
      show pascal_to_kebab_smart s = name
      rw [smart_no_upper_id s h, hs]
  · exact Iff.rfl

/-- C4 witness: the theorem applied to the concrete entry foo.BAR. -/
theorem c4_witness :
    rename_target ("foo.BAR".toList) = "foo.BAR".toList ∧
    (shouldRename ("foo.BAR".toList) = false ↔ needs_conversion ("foo.BAR".toList) = false) :=
  c4_skip_condition ("foo.BAR".toList) (by decide)

/-- C5 counterexample: a directory named My.Component is not converted as one
unit; `fn rename_file` splits it into stem My and extension Component exactly
as for a file, producing my.Component, not the whole-name conversion. -/
theorem c5_counterexample :
    rename_target ("My.Component".toList) = "my.Component".toList ∧
    pascal_to_kebab_smart ("My.Component".toList) = "my.-component".toList ∧
    rename_target ("My.Component".toList) ≠ pascal_to_kebab_smart ("My.Component".toList) := by
  refine ⟨by decide, by decide, by decide⟩

/-- C5 (amended): for every entry, directory or file, whose name splits into a
stem and an extension at the last dot, the renamer applies the converter to
the stem only and reattaches the extension verbatim. -/
theorem c5_stem_only (name stem ext : List Char)
    (h : splitStemExt name = (stem, some ext)) :
    rename_target name = pascal_to_kebab_smart stem ++ '.' :: ext := by
  unfold rename_target
  rw [h]

/-- C5 witness: the theorem applied to the concrete name My.Component. -/
theorem c5_witness :
    rename_target ("My.Component".toList)
      = pascal_to_kebab_smart ("My".toList) ++ '.' :: "Component".toList :=
  c5_stem_only ("My.Component".toList) ("My".toList) ("Component".toList) (by decide)

theorem pascalRest_no_upper (s : List Char) : (pascalRest s).any isUp = false := by
  induction s with
  | nil => rfl
  | cons c t ih =>
    by_cases hc : isUp c = true
    · simp [pascalRest, hc, isUp_lowerFirst, ih]
      decide
    · simp only [Bool.not_eq_true] at hc
      simp [pascalRest, hc, ih]

theorem pascal_to_kebab_no_upper (s : List Char) : (pascal_to_kebab s).any isUp = false := by
  match s with
  | [] => rfl
  | c :: t =>
    simp [pascal_to_kebab, isUp_lowerFirst, pascalRest_no_upper]

theorem camelRest_no_upper (s : List Char) : (camelRest s).any isUp = false := by
  induction s with
  | nil => rfl
  | cons c t ih =>
    by_cases hc : isUp c = true
    · simp [camelRest, hc, isUp_lowerFirst, ih]
      decide
    · simp only [Bool.not_eq_true] at hc
      simp [camelRest, hc, ih]

theorem camel_to_kebab_no_upper (s : List Char) : (camel_to_kebab s).any isUp = false := by
  match s with
  | [] => rfl
  | c :: t =>
    simp [camel_to_kebab, isUp_lowerFirst, camelRest_no_upper]

theorem acronymLoop_no_upper (s : List Char) : ∀ (buf : List Char) (pl : Bool),
    (acronymLoop s buf pl).any isUp = false := by
  induction s with
  | nil =>
    intro buf pl
    by_cases hb : buf = []
    · simp [acronymLoop, hb]
    · by_cases hp : pl = true
      · simp [acronymLoop, hb, hp, isUp_lowerFirst]
        decide
      · simp only [Bool.not_eq_true] at hp
        simp [acronymLoop, hb, hp, isUp_lowerFirst]
  | cons c t ih =>
    intro buf pl
    by_cases hc : isUp c = true
    · by_cases hd : buf ≠ [] ∧ pl = true
      · simp [acronymLoop, hc, hd, ih]
        decide
      · simp [acronymLoop, hc, hd, ih]
    · simp only [Bool.not_eq_true] at hc
      by_cases hb : buf = []
      · simp [acronymLoop, hc, hb, ih]
      · simp [acronymLoop, hc, hb, ih, isUp_lowerFirst]

theorem acronym_to_kebab_no_upper (s : List Char) : (acronym_to_kebab s).any isUp = false :=
  acronymLoop_no_upper s [] false

theorem detect_case_kebab_no_upper (s : List Char) (h : detect_case s = Case.Kebab) :
    s.any isUp = false := by
  rw [detect_case_char s] at h
  by_cases h3 : hasRun3 s = true
  · simp [h3] at h
  · by_cases ha : s.any isUp = true
    · simp only [Bool.not_eq_true] at h3
      by_cases hh : headUp s = true <;> simp [h3, ha, hh] at h
    · simpa using ha

theorem smart_no_upper (s : List Char) : (pascal_to_kebab_smart s).any isUp = false := by
  unfold pascal_to_kebab_smart
  match hdet : detect_case s with
  | Case.Kebab => exact detect_case_kebab_no_upper s hdet
  | Case.Pascal => exact pascal_to_kebab_no_upper s
  | Case.Camel => exact camel_to_kebab_no_upper s
  | Case.Acronym => exact acronym_to_kebab_no_upper s

theorem smart_idem (s : List Char) :
    pascal_to_kebab_smart (pascal_to_kebab_smart s) = pascal_to_kebab_smart s :=
  smart_no_upper_id (pascal_to_kebab_smart s) (smart_no_upper s)

/-- C6: the converter is idempotent on ASCII base names, where the character
model is exact: its output then has no uppercase letter, so the classifier
maps it to Kebab and the second application is the identity.  On uncased
uppercase letters such as U+1D400 idempotence fails (see the
counterexample). -/
theorem c6_smart_idempotent (s : List Char) (_h : ∀ c ∈ s, c.toNat ≤ 127) :
    pascal_to_kebab_smart (pascal_to_kebab_smart s) = pascal_to_kebab_smart s :=
  smart_idem s

theorem isWs_not_quote (c : Char) (h : isWs c = true) : isQuote c = false := by
  unfold isWs at h
  rcases (by simpa using h :
      ((((c = ' ' ∨ c = '\t') ∨ c = '\n') ∨ c = '\x0d') ∨ c = Char.ofNat 11)
        ∨ c = Char.ofNat 12) with ((((h | h) | h) | h) | h) | h <;>
    subst h <;> decide

theorem isQuote_not_ws (c : Char) (h : isQuote c = true) : isWs c = false := by
  unfold isQuote at h
  rcases (by simpa using h : c = dq ∨ c = squote) with h | h <;> subst h <;> decide

theorem fromL_no_quote : ∀ c ∈ fromL, isQuote c = false := by decide

theorem importL_no_quote : ∀ c ∈ importL, isQuote c = false := by decide

theorem typeL_no_quote : ∀ c ∈ typeL, isQuote c = false := by decide

theorem requireL_no_quote : ∀ c ∈ requireL, isQuote c = false := by decide

theorem parseLit_eq_ite (lit : List Char) : ∀ l : List Char,
    parseLit lit l = if l.take lit.length = lit then some (l.drop lit.length) else none := by
  induction lit with
  | nil => intro l; simp [parseLit]
  | cons a lit' ih =>
    intro l
    match l with
    | [] => simp [parseLit]
    | c :: t =>
      by_cases hca : c = a
      · subst hca
        simp [parseLit, ih t]
      · simp [parseLit, hca]

theorem parseLit_sound (lit l r : List Char) (h : parseLit lit l = some r) :
    l = lit ++ r := by
  rw [parseLit_eq_ite] at h
  by_cases hc : l.take lit.length = lit
  · rw [if_pos hc] at h
    cases h
    conv_lhs => rw [← List.take_append_drop lit.length l]
    rw [hc]
  · rw [if_neg hc] at h
    cases h

theorem parseLit_replay (lit r : List Char) : parseLit lit (lit ++ r) = some r := by
  rw [parseLit_eq_ite]
  rw [List.take_left, List.drop_left, if_pos rfl]

theorem takeWhile_append_stop {p : Char → Bool} (w r : List Char)
    (hw : ∀ c ∈ w, p c = true)
    (hr : ∀ d, r.head? = some d → p d = false) :
    (w ++ r).takeWhile p = w ∧ (w ++ r).dropWhile p = r := by
  induction w with
  | nil =>
    simp only [List.nil_append]
    match r with
    | [] => simp
    | d :: rs =>
      have := hr d rfl
      simp [List.takeWhile_cons, List.dropWhile_cons, this]
  | cons a w' ih =>
    have ha : p a = true := hw a (by simp)
    have ih' := ih (fun c hc => hw c (by simp [hc]))
    simp [List.takeWhile_cons, List.dropWhile_cons, ha, ih'.1, ih'.2]

theorem parseWsPlus_replay (w r : List Char) (hne : w ≠ []) (hw : ∀ c ∈ w, isWs c = true)
    (hr : ∀ d, r.head? = some d → isWs d = false) :
    parseWsPlus (w ++ r) = some (w, r) := by
  have h := takeWhile_append_stop w r hw hr
  unfold parseWsPlus
  rw [h.1, h.2, if_neg hne]

theorem parseWsPlus_sound (l w r : List Char) (h : parseWsPlus l = some (w, r)) :
    l = w ++ r ∧ w ≠ [] ∧ (∀ c ∈ w, isWs c = true) ∧
      (∀ d, r.head? = some d → isWs d = false) := by
  unfold parseWsPlus at h
  by_cases hz : l.takeWhile isWs = []
  · rw [if_pos hz] at h
    cases h
  · rw [if_neg hz] at h
    cases h
    refine ⟨(List.takeWhile_append_dropWhile _ _).symm, hz,
      fun c hc => List.mem_takeWhile_imp hc, ?_⟩
    intro d hd
    match hx : l.dropWhile isWs with
    | [] => rw [hx] at hd; cases hd
    | e :: rs =>
      rw [hx] at hd
      cases hd
      exact dropWhileHeadFalse hx
theorem parseWsPlus_none_head (d : Char) (z : List Char) (h : isWs d = false) :
    parseWsPlus (d :: z) = none := by
  simp [parseWsPlus, List.takeWhile_cons, h]

theorem parseWsPlus_cons_isSome (d : Char) (z : List Char) :
    (parseWsPlus (d :: z)).isSome = isWs d := by
  by_cases h : isWs d = true
  · simp [parseWsPlus, List.takeWhile_cons, h]
  · simp only [Bool.not_eq_true] at h
    rw [parseWsPlus_none_head d z h, h]
    rfl

theorem take_append_left {x y : List Char} {n : Nat} (h : n ≤ x.length) :
    (x ++ y).take n = x.take n := by
  conv_lhs => rw [← List.take_append_drop n x]
  rw [List.append_assoc]
  rw [List.take_left' (by simp [List.length_take]; omega)]

theorem parseOptType_sound (l t r : List Char) (h : parseOptType l = (t, r)) :
    l = t ++ r ∧ (t = [] ∨ ∃ w, t = typeL ++ w ∧ w ≠ [] ∧ (∀ c ∈ w, isWs c = true) ∧
      (∀ d, r.head? = some d → isWs d = false)) := by
  unfold parseOptType at h
  match h1 : parseLit typeL l with
  | none =>
    simp only [h1] at h
    cases h
    exact ⟨rfl, Or.inl rfl⟩
  | some r1 =>
    simp only [h1] at h
    have hdec := parseLit_sound typeL l r1 h1
    match h2 : parseWsPlus r1 with
    | none =>
      simp only [h2] at h
      cases h
      exact ⟨rfl, Or.inl rfl⟩
    | some (w, r2) =>
      simp only [h2] at h
      have hws := parseWsPlus_sound r1 w r2 h2
      cases h
      constructor
      · rw [hdec, hws.1, List.append_assoc]
      · exact Or.inr ⟨w, rfl, hws.2.1, hws.2.2.1, hws.2.2.2⟩

theorem parseOptType_type_replay (w r : List Char) (hne : w ≠ [])
    (hw : ∀ c ∈ w, isWs c = true) (hr : ∀ d, r.head? = some d → isWs d = false) :
    parseOptType (typeL ++ w ++ r) = (typeL ++ w, r) := by
  rw [List.append_assoc]
  simp only [parseOptType, parseLit_replay, parseWsPlus_replay w r hne hw hr]

theorem parseOptType_skip_replay (x : List Char) (q : Char) (r r' : List Char)
    (hlen : 4 ≤ x.length) (hq : isQuote q = true)
    (h : parseOptType (x ++ q :: r) = ([], x ++ q :: r)) :
    parseOptType (x ++ q :: r') = ([], x ++ q :: r') := by
  have htake : ∀ y : List Char, (x ++ q :: y).take 4 = x.take 4 := fun y =>
    take_append_left hlen
  by_cases hty : x.take 4 = typeL
  · have hlit : ∀ y : List Char, parseLit typeL (x ++ q :: y) = some (x.drop 4 ++ q :: y) := by
      intro y
      rw [parseLit_eq_ite]
      have h4 : typeL.length = 4 := rfl
      rw [h4, htake y, if_pos hty]
      congr 1
      conv_lhs => rw [← List.take_append_drop 4 x]
      rw [List.append_assoc, List.drop_left' (by simp [List.length_take]; omega)]
    have hfail : parseWsPlus (x.drop 4 ++ q :: r) = none := by
      match h2 : parseWsPlus (x.drop 4 ++ q :: r) with
      | none => rfl
      | some (w, r2) =>
        unfold parseOptType at h
        simp only [hlit r, h2] at h
        have hfst : typeL ++ w = [] := congrArg Prod.fst h
        simp [typeL] at hfst
    have hfail2 : parseWsPlus (x.drop 4 ++ q :: r') = none := by
      match hx : x.drop 4 with
      | [] =>
        exact parseWsPlus_none_head q r' (isQuote_not_ws q hq)
      | d :: xs =>
        rw [hx] at hfail
        have hd : isWs d = false := by
          have hiss := parseWsPlus_cons_isSome d (xs ++ q :: r)
          rw [List.cons_append] at hfail
          rw [hfail] at hiss
          simpa using hiss.symm
        rw [List.cons_append]
        exact parseWsPlus_none_head d (xs ++ q :: r') hd
    unfold parseOptType
    simp only [hlit r', hfail2]
  · unfold parseOptType
    rw [parseLit_eq_ite]
    have h4 : typeL.length = 4 := rfl
    rw [h4, htake r']
    simp only [if_neg hty]
theorem parseLit_none_of_take (lit l : List Char) (h : l.take lit.length ≠ lit) :
    parseLit lit l = none := by
  rw [parseLit_eq_ite, if_neg h]

theorem parseLit_take_replay (lit x : List Char) (q : Char) (y : List Char)
    (hlen : lit.length ≤ x.length) (hty : x.take lit.length = lit) :
    parseLit lit (x ++ q :: y) = some (x.drop lit.length ++ q :: y) := by
  rw [parseLit_eq_ite, take_append_left hlen, if_pos hty]
  congr 1
  conv_lhs => rw [← List.take_append_drop lit.length x]
  rw [List.append_assoc, List.drop_left' (by simp [List.length_take]; omega)]

theorem parseFromQuote_sound (l con : List Char) (q : Char) (r : List Char)
    (h : parseFromQuote l = some (con, q, r)) :
    l = con ++ q :: r ∧ isQuote q = true ∧
      (∃ w, con = fromL ++ w ∧ ∀ c ∈ w, isWs c = true) ∧ 4 ≤ con.length := by
  unfold parseFromQuote at h
  match h1 : parseLit fromL l with
  | none =>
    simp only [h1] at h
    cases h
  | some r1 =>
    simp only [h1] at h
    have hdec := parseLit_sound fromL l r1 h1
    match h2 : r1.dropWhile isWs with
    | [] =>
      simp only [h2] at h
      cases h
    | c :: rest =>
      simp only [h2] at h
      by_cases hq : isQuote c = true
      · rw [if_pos hq] at h
        cases h
        refine ⟨?_, hq, ⟨r1.takeWhile isWs, rfl, fun d hd => List.mem_takeWhile_imp hd⟩, by simp [fromL]⟩
        rw [hdec]
        conv_lhs => rw [← List.takeWhile_append_dropWhile isWs r1]
        rw [h2, List.append_assoc]
      · rw [if_neg hq] at h
        cases h

theorem parseFromQuote_replay (w : List Char) (q : Char) (r : List Char)
    (hw : ∀ c ∈ w, isWs c = true) (hq : isQuote q = true) :
    parseFromQuote (fromL ++ (w ++ q :: r)) = some (fromL ++ w, q, r) := by
  have hst := takeWhile_append_stop (p := isWs) w (q :: r) hw
    (by intro d hd; cases hd; exact isQuote_not_ws q hq)
  unfold parseFromQuote
  simp only [parseLit_replay, hst.1, hst.2, if_pos hq]

theorem parseFromQuote_none_congr (x : List Char) (q : Char) (r r' : List Char)
    (hx : ∀ c ∈ x, isQuote c = false) (hq : isQuote q = true)
    (h : parseFromQuote (x ++ q :: r) = none) :
    parseFromQuote (x ++ q :: r') = none := by
  by_cases hlen : 4 ≤ x.length
  · by_cases hfr : x.take 4 = fromL
    · have hlit : ∀ y : List Char,
          parseLit fromL (x ++ q :: y) = some (x.drop 4 ++ q :: y) :=
        fun y => parseLit_take_replay fromL x q y hlen hfr
      have hdq : ∀ c ∈ x.drop 4, isQuote c = false := fun c hc =>
        hx c (List.mem_of_mem_drop hc)
      match hy : (x.drop 4).dropWhile isWs with
      | [] =>
        exfalso
        have hall : ∀ c ∈ x.drop 4, isWs c = true := by
          intro c hc
          by_contra hcw
          simp only [Bool.not_eq_true] at hcw
          have : (x.drop 4).dropWhile isWs ≠ [] := by
            intro hz
            have := List.takeWhile_append_dropWhile (p := isWs) (l := x.drop 4)
            rw [hz, List.append_nil] at this
            rw [← this] at hc
            have := List.mem_takeWhile_imp hc
            rw [hcw] at this
            cases this
          exact this hy
        have hst := takeWhile_append_stop (p := isWs) (x.drop 4) (q :: r) hall
          (by intro d hd; cases hd; exact isQuote_not_ws q hq)
        unfold parseFromQuote at h
        simp only [hlit r, hst.2, if_pos hq] at h
        cases h
      | d :: ys =>
        have hdw : isWs d = false := dropWhileHeadFalse hy
        have hdq2 : isQuote d = false := by
          apply hdq
          have hsub := List.dropWhile_sublist (p := isWs) (l := x.drop 4)
          rw [hy] at hsub
          exact hsub.mem (by simp)
        have hdrop : ∀ y : List Char,
            (x.drop 4 ++ q :: y).dropWhile isWs = d :: (ys ++ q :: y) := by
          intro y
          rw [List.dropWhile_append]
          rw [hy]
          simp
        unfold parseFromQuote
        simp only [hlit r', hdrop r']
        simp [hdq2]
    · have : parseLit fromL (x ++ q :: r') = none := by
        apply parseLit_none_of_take
        have h4 : fromL.length = 4 := rfl
        rw [h4, take_append_left hlen]
        exact hfr
      unfold parseFromQuote
      simp only [this]
  · have hnone : parseLit fromL (x ++ q :: r') = none := by
      apply parseLit_none_of_take
      intro hcon
      have h4 : fromL.length = 4 := rfl
      rw [h4] at hcon
      have hq4 : q ∈ (x ++ q :: r').take 4 := by
        rw [List.take_append_eq_append_take]
        refine List.mem_append.mpr (Or.inr ?_)
        have : x.length < 4 := by omega
        obtain ⟨k, hk⟩ : ∃ k, 4 - x.length = k + 1 := ⟨3 - x.length, by omega⟩
        rw [hk, List.take_succ_cons]
        simp
      rw [hcon] at hq4
      have := fromL_no_quote q hq4
      rw [this] at hq
      cases hq
    unfold parseFromQuote
    simp only [hnone]

theorem lazyFrom_sound (l : List Char) : ∀ con q r, lazyFrom l = some (con, q, r) →
    l = con ++ q :: r ∧ isQuote q = true ∧ (∀ c ∈ con, isQuote c = false) ∧
      4 ≤ con.length := by
  induction l with
  | nil => intro con q r h; simp [lazyFrom] at h
  | cons c cs ih =>
    intro con q r h
    unfold lazyFrom at h
    match h1 : parseFromQuote (c :: cs) with
    | some m =>
      simp only [h1] at h
      cases h
      have hs := parseFromQuote_sound _ _ _ _ h1
      obtain ⟨w, hcon, hw⟩ := hs.2.2.1
      refine ⟨hs.1, hs.2.1, ?_, hs.2.2.2⟩
      intro d hd
      rw [hcon] at hd
      rcases List.mem_append.mp hd with hmem | hmem
      · exact fromL_no_quote d hmem
      · exact isWs_not_quote d (hw d hmem)
    | none =>
      simp only [h1] at h
      by_cases hcq : isQuote c = true
      · rw [if_pos hcq] at h
        cases h
      · rw [if_neg hcq] at h
        simp only [Bool.not_eq_true] at hcq
        match h2 : lazyFrom cs with
        | none =>
          simp only [h2] at h
          cases h
        | some (con1, q1, r1) =>
          simp only [h2] at h
          have hrec := ih con1 q1 r1 h2
          cases h
          refine ⟨by rw [hrec.1]; rfl, hrec.2.1, ?_, by simp; omega⟩
          intro d hd
          rcases List.mem_cons.mp hd with hmem | hmem
          · rw [hmem]; exact hcq
          · exact hrec.2.2.1 d hmem

theorem lazyFrom_replay (l : List Char) : ∀ con q rest, lazyFrom l = some (con, q, rest) →
    ∀ rest', lazyFrom (con ++ q :: rest') = some (con, q, rest') := by
  induction l with
  | nil => intro con q rest h; simp [lazyFrom] at h
  | cons c cs ih =>
    intro con q rest h rest'
    unfold lazyFrom at h
    match h1 : parseFromQuote (c :: cs) with
    | some m =>
      simp only [h1] at h
      cases h
      have hs := parseFromQuote_sound _ _ _ _ h1
      obtain ⟨w, hcon, hw⟩ := hs.2.2.1
      have hr : parseFromQuote (con ++ q :: rest') = some (con, q, rest') := by
        rw [hcon, List.append_assoc]
        exact parseFromQuote_replay w q rest' hw hs.2.1
      obtain ⟨e, con2, hce⟩ : ∃ e con2, con = e :: con2 := by
        match con, hs.2.2.2 with
        | e :: con2, _ => exact ⟨e, con2, rfl⟩
      rw [hce]
      rw [hce] at hr
      show lazyFrom (e :: (con2 ++ q :: rest')) = some (e :: con2, q, rest')
      unfold lazyFrom
      rw [List.cons_append] at hr
      simp only [hr]
    | none =>
      simp only [h1] at h
      by_cases hcq : isQuote c = true
      · rw [if_pos hcq] at h
        cases h
      · rw [if_neg hcq] at h
        match h2 : lazyFrom cs with
        | none =>
          simp only [h2] at h
          cases h
        | some (con1, q1, r1) =>
          simp only [h2] at h
          have hsnd := lazyFrom_sound cs con1 q1 r1 h2
          have hrep := ih con1 q1 r1 h2 rest'
          cases h
          show lazyFrom (c :: (con1 ++ q :: rest')) = some (c :: con1, q, rest')
          have hn : parseFromQuote (c :: (con1 ++ q :: rest')) = none := by
            have hbase : parseFromQuote ((c :: con1) ++ q :: rest) = none := by
              rw [List.cons_append, ← hsnd.1]
              exact h1
            have := parseFromQuote_none_congr (c :: con1) q rest rest'
              (by
                intro d hd
                rcases List.mem_cons.mp hd with hmem | hmem
                · rw [hmem]; simpa using hcq
                · exact hsnd.2.2.1 d hmem)
              hsnd.2.1 hbase
            rw [List.cons_append] at this
            exact this
          unfold lazyFrom
          simp only [hn, if_neg hcq]
          simp only [hrep]

theorem parsePath_sound (l p : List Char) (q : Char) (r : List Char)
    (h : parsePath l = some (p, q, r)) :
    l = p ++ q :: r ∧ p ≠ [] ∧ (∀ c ∈ p, isQuote c = false) ∧ isQuote q = true := by
  unfold parsePath at h
  by_cases hz : l.takeWhile (fun c => !isQuote c) = []
  · simp only [if_pos hz] at h
    cases h
  · simp only [if_neg hz] at h
    match h2 : l.dropWhile (fun c => !isQuote c) with
    | [] =>
      simp only [h2] at h
      cases h
    | c :: rest =>
      simp only [h2] at h
      cases h
      refine ⟨?_, hz, ?_, ?_⟩
      · conv_lhs => rw [← List.takeWhile_append_dropWhile (fun c => !isQuote c) l]
        rw [h2]
      · intro d hd
        have := List.mem_takeWhile_imp hd
        simpa using this
      · have := dropWhileHeadFalse h2
        simpa using this

theorem parsePath_replay (p : List Char) (q : Char) (r : List Char)
    (hp : p ≠ []) (hpq : ∀ c ∈ p, isQuote c = false) (hq : isQuote q = true) :
    parsePath (p ++ q :: r) = some (p, q, r) := by
  have hst := takeWhile_append_stop (p := fun c => !isQuote c) p (q :: r)
    (by intro c hc; simp [hpq c hc])
    (by intro d hd; cases hd; simp [hq])
  unfold parsePath
  simp only [hst.1, hst.2, if_neg hp]

theorem parseOptSemi_sound (l x r : List Char) (h : parseOptSemi l = (x, r)) :
    l = x ++ r ∧ ((x = [] ∧ ∀ d, r.head? = some d → (d = ')' ∨ d = ';') → False) ∨
      (∃ c, x = [c] ∧ (c = ')' ∨ c = ';'))) := by
  match l with
  | [] =>
    unfold parseOptSemi at h
    cases h
    exact ⟨rfl, Or.inl ⟨rfl, by intro d hd; cases hd⟩⟩
  | c :: rest =>
    simp only [parseOptSemi] at h
    by_cases hc : (c = ')' || c = ';') = true
    · rw [if_pos hc] at h
      cases h
      exact ⟨rfl, Or.inr ⟨c, rfl, by simpa using hc⟩⟩
    · rw [if_neg hc] at h
      cases h
      refine ⟨rfl, Or.inl ⟨rfl, ?_⟩⟩
      intro d hd hor
      cases hd
      apply hc
      simpa using hor

theorem parseOptSemi_semi (c : Char) (r : List Char) (hc : c = ')' ∨ c = ';') :
    parseOptSemi (c :: r) = ([c], r) := by
  simp only [parseOptSemi]
  rw [if_pos (by simpa using hc)]

theorem parseOptSemi_skip (r : List Char)
    (hr : ∀ d, r.head? = some d → (d = ')' ∨ d = ';') → False) :
    parseOptSemi r = ([], r) := by
  match r with
  | [] => rfl
  | c :: rest =>
    simp only [parseOptSemi]
    rw [if_neg]
    intro hcon
    exact hr c rfl (by simpa using hcon)
theorem head_append_cons (x : List Char) (q : Char) (y z : List Char) :
    (x ++ q :: y).head? = (x ++ q :: z).head? := by
  match x with
  | [] => rfl
  | c :: t => rfl

theorem branch2_sound (l pre path suf rest : List Char)
    (h : branch2 l = some (pre, path, suf, rest)) :
    ∃ q q2 st, pre = requireL ++ [q] ∧ isQuote q = true ∧
      path ≠ [] ∧ (∀ c ∈ path, isQuote c = false) ∧
      suf = q2 :: st ∧ isQuote q2 = true ∧ (∀ c ∈ st, isQuote c = false) ∧
      (st = [] → ∀ d, rest.head? = some d → (d = ')' ∨ d = ';') → False) ∧
      l = pre ++ path ++ suf ++ rest := by
  unfold branch2 at h
  match h1 : parseLit requireL l with
  | none =>
    simp only [h1] at h
    cases h
  | some r1 =>
    simp only [h1] at h
    have hdec := parseLit_sound requireL l r1 h1
    match hr1 : r1 with
    | [] => simp at h
    | c :: r2 =>
      simp only [] at h
      by_cases hcq : isQuote c = true
      · rw [if_pos hcq] at h
        match h2 : parsePath r2 with
        | none =>
          simp only [h2] at h
          cases h
        | some (p0, q2, r3) =>
          simp only [h2] at h
          have hps := parsePath_sound r2 p0 q2 r3 h2
          match h3 : parseOptSemi r3 with
          | (st, r4) =>
            have hos := parseOptSemi_sound r3 st r4 h3
            simp only [h3] at h
            cases h
            refine ⟨c, q2, st, rfl, hcq, hps.2.1, hps.2.2.1, rfl, hps.2.2.2, ?_, ?_, ?_⟩
            · intro d hd
              rcases hos.2 with ⟨hst, hnone⟩ | ⟨e, he, hor⟩
              · rw [hst] at hd
                cases hd
              · rw [he] at hd
                have hde : d = e := by simpa using hd
                rw [hde]
                rcases hor with hh | hh <;> rw [hh] <;> decide
            · intro hst d hd hdor
              rcases hos.2 with ⟨hst2, hnone⟩ | ⟨e, he, hor⟩
              · exact hnone d hd hdor
              · rw [he] at hst
                cases hst
            · rw [hdec, hps.1, hos.1]
              simp [List.append_assoc]
      · rw [if_neg hcq] at h
        cases h

theorem branch2_replay (l pre path suf rest : List Char)
    (h : branch2 l = some (pre, path, suf, rest)) (path2 : List Char) (qq : Char)
    (Y : List Char) (hp2 : path2 ≠ []) (hp2q : ∀ c ∈ path2, isQuote c = false)
    (hqq : isQuote qq = true) :
    branch2 (pre ++ path2 ++ qq :: Y) =
      some (pre, path2, qq :: (parseOptSemi Y).1, (parseOptSemi Y).2) := by
  obtain ⟨q, q2, st, hpre, hq, -, -, hsuf, -, -, -, -⟩ := branch2_sound l pre path suf rest h
  subst hpre
  unfold branch2
  have hsplit : requireL ++ [q] ++ path2 ++ qq :: Y = requireL ++ (q :: (path2 ++ qq :: Y)) := by
    simp [List.append_assoc]
  rw [hsplit, parseLit_replay]
  simp only [if_pos hq]
  rw [parsePath_replay path2 qq Y hp2 hp2q hqq]
theorem branch1_sound (l pre path suf rest : List Char)
    (h : branch1 l = some (pre, path, suf, rest)) :
    ∃ body q q2 st,
      pre = body ++ [q] ∧ body ≠ [] ∧ (∀ c ∈ body, isQuote c = false) ∧ isQuote q = true ∧
      path ≠ [] ∧ (∀ c ∈ path, isQuote c = false) ∧
      suf = q2 :: st ∧ isQuote q2 = true ∧ (∀ c ∈ st, isQuote c = false) ∧
      (st = [] → ∀ d, rest.head? = some d → (d = ')' ∨ d = ';') → False) ∧
      l = pre ++ path ++ suf ++ rest := by
  unfold branch1 at h
  match h1 : parseLit importL l with
  | none =>
    simp only [h1] at h
    cases h
  | some r1 =>
    simp only [h1] at h
    have hd1 := parseLit_sound importL l r1 h1
    match h2 : parseWsPlus r1 with
    | none =>
      simp only [h2] at h
      cases h
    | some (w, r2) =>
      simp only [h2] at h
      have hd2 := parseWsPlus_sound r1 w r2 h2
      match h3 : parseOptType r2 with
      | (t, r3) =>
        simp only [h3] at h
        have hd3 := parseOptType_sound r2 t r3 h3
        match h4 : lazyFrom r3 with
        | none =>
          simp only [h4] at h
          cases h
        | some (con, q, r4) =>
          simp only [h4] at h
          have hd4 := lazyFrom_sound r3 con q r4 h4
          match h5 : parsePath r4 with
          | none =>
            simp only [h5] at h
            cases h
          | some (p0, q2, r5) =>
            simp only [h5] at h
            have hd5 := parsePath_sound r4 p0 q2 r5 h5
            match h6 : parseOptSemi r5 with
            | (st, r6) =>
              have hd6 := parseOptSemi_sound r5 st r6 h6
              simp only [h6] at h
              cases h
              refine ⟨importL ++ w ++ t ++ con, q, q2, st, rfl, by simp [importL], ?_, hd4.2.1,
                hd5.2.1, hd5.2.2.1, rfl, hd5.2.2.2, ?_, ?_, ?_⟩
              · intro c hc
                rcases List.mem_append.mp hc with hc1 | hc1
                · rcases List.mem_append.mp hc1 with hc2 | hc2
                  · rcases List.mem_append.mp hc2 with hc3 | hc3
                    · exact importL_no_quote c hc3
                    · exact isWs_not_quote c (hd2.2.2.1 c hc3)
                  · rcases hd3.2 with ht | ⟨wt, hwt, hwtne, hwtws, hwtr⟩
                    · rw [ht] at hc2
                      cases hc2
                    · rw [hwt] at hc2
                      rcases List.mem_append.mp hc2 with hc3 | hc3
                      · exact typeL_no_quote c hc3
                      · exact isWs_not_quote c (hwtws c hc3)
                · exact hd4.2.2.1 c hc1
              · intro c hc
                rcases hd6.2 with ⟨hst, hnone⟩ | ⟨e, he, hor⟩
                · rw [hst] at hc
                  cases hc
                · rw [he] at hc
                  have hce : c = e := by simpa using hc
                  rw [hce]
                  rcases hor with hh | hh <;> rw [hh] <;> decide
              · intro hst d hd hdor
                rcases hd6.2 with ⟨hst2, hnone⟩ | ⟨e, he, hor⟩
                · exact hnone d hd hdor
                · rw [he] at hst
                  cases hst
              · rw [hd1, hd2.1, hd3.1, hd4.1, hd5.1, hd6.1]
                simp [List.append_assoc]
theorem branch1_replay (l pre path suf rest : List Char)
    (h : branch1 l = some (pre, path, suf, rest)) (path2 : List Char) (qq : Char)
    (Y : List Char) (hp2 : path2 ≠ []) (hp2q : ∀ c ∈ path2, isQuote c = false)
    (hqq : isQuote qq = true) :
    branch1 (pre ++ path2 ++ qq :: Y) =
      some (pre, path2, qq :: (parseOptSemi Y).1, (parseOptSemi Y).2) := by
  unfold branch1 at h
  match h1 : parseLit importL l with
  | none =>
    simp only [h1] at h
    cases h
  | some r1 =>
    simp only [h1] at h
    match h2 : parseWsPlus r1 with
    | none =>
      simp only [h2] at h
      cases h
    | some (w, r2) =>
      simp only [h2] at h
      have hd2 := parseWsPlus_sound r1 w r2 h2
      match h3 : parseOptType r2 with
      | (t, r3) =>
        simp only [h3] at h
        have hd3 := parseOptType_sound r2 t r3 h3
        match h4 : lazyFrom r3 with
        | none =>
          simp only [h4] at h
          cases h
        | some (con, q, r4) =>
          simp only [h4] at h
          have hd4 := lazyFrom_sound r3 con q r4 h4
          match h5 : parsePath r4 with
          | none =>
            simp only [h5] at h
            cases h
          | some (p0, q2, r5) =>
            simp only [h5] at h
            match h6 : parseOptSemi r5 with
            | (st, r6) =>
              simp only [h6] at h
              cases h
              have hni : (importL ++ w ++ t ++ con ++ [q]) ++ path2 ++ qq :: Y
                  = importL ++ (w ++ (t ++ (con ++ q :: (path2 ++ qq :: Y)))) := by
                simp [List.append_assoc]
              rw [hni]
              unfold branch1
              have hz : (t ++ (con ++ q :: (path2 ++ qq :: Y))).head?
                  = (t ++ (con ++ q :: r4)).head? := by
                rw [← List.append_assoc, ← List.append_assoc]
                exact head_append_cons (t ++ con) q _ _
              have hws : parseWsPlus (w ++ (t ++ (con ++ q :: (path2 ++ qq :: Y))))
                  = some (w, t ++ (con ++ q :: (path2 ++ qq :: Y))) := by
                apply parseWsPlus_replay w _ hd2.2.1 hd2.2.2.1
                intro d hd
                rw [hz] at hd
                apply hd2.2.2.2 d
                rw [hd3.1, hd4.1]
                exact hd
              have hlz : lazyFrom (con ++ q :: (path2 ++ qq :: Y))
                  = some (con, q, path2 ++ qq :: Y) :=
                lazyFrom_replay r3 con q r4 h4 (path2 ++ qq :: Y)
              have hpp : parsePath (path2 ++ qq :: Y) = some (path2, qq, Y) :=
                parsePath_replay path2 qq Y hp2 hp2q hqq
              rcases hd3.2 with ht | ⟨wt, hwt, hwtne, hwtws, hwtr⟩
              · have hsk : parseOptType (con ++ q :: (path2 ++ qq :: Y))
                    = ([], con ++ q :: (path2 ++ qq :: Y)) := by
                  apply parseOptType_skip_replay con q r4 _ hd4.2.2.2 hd4.2.1
                  have h3b : parseOptType r2 = ([], r3) := by rw [h3, ht]
                  rw [hd3.1, ht, List.nil_append, hd4.1] at h3b
                  exact h3b
                rw [ht] at hws ⊢
                simp only [List.nil_append] at hws ⊢
                simp only [parseLit_replay, hws, hsk, hlz, hpp]
              · have hr3 : ∀ d, (con ++ q :: (path2 ++ qq :: Y)).head? = some d →
                    isWs d = false := by
                  intro d hd
                  apply hwtr d
                  rw [hd4.1]
                  rw [head_append_cons con q r4 (path2 ++ qq :: Y)]
                  exact hd
                have htp : parseOptType (typeL ++ wt ++ (con ++ q :: (path2 ++ qq :: Y)))
                    = (typeL ++ wt, con ++ q :: (path2 ++ qq :: Y)) :=
                  parseOptType_type_replay wt _ hwtne hwtws hr3
                rw [hwt] at hws ⊢
                simp only [parseLit_replay, hws, htp, hlz, hpp]
theorem tryMatch_sound (l pre path suf rest : List Char)
    (h : tryMatch l = some (pre, path, suf, rest)) :
    ∃ body q q2 st,
      pre = body ++ [q] ∧ body ≠ [] ∧ (∀ c ∈ body, isQuote c = false) ∧ isQuote q = true ∧
      path ≠ [] ∧ (∀ c ∈ path, isQuote c = false) ∧
      suf = q2 :: st ∧ isQuote q2 = true ∧ (∀ c ∈ st, isQuote c = false) ∧
      (st = [] → ∀ d, rest.head? = some d → (d = ')' ∨ d = ';') → False) ∧
      l = pre ++ path ++ suf ++ rest := by
  unfold tryMatch at h
  match h1 : branch1 l with
  | some m =>
    simp only [h1] at h
    cases h
    exact branch1_sound l pre path suf rest h1
  | none =>
    simp only [h1] at h
    obtain ⟨q, q2, st, hpre, hq, hp, hpq, hsuf, hq2, hst, hnone, hl⟩ :=
      branch2_sound l pre path suf rest h
    exact ⟨requireL, q, q2, st, hpre, by simp [requireL],
      (fun c hc => requireL_no_quote c hc), hq, hp, hpq, hsuf, hq2, hst, hnone, hl⟩

theorem tryMatch_rest_lt (l pre path suf rest : List Char)
    (h : tryMatch l = some (pre, path, suf, rest)) : rest.length < l.length := by
  obtain ⟨body, q, q2, st, hpre, hbody, -, -, -, -, hsuf, -, -, -, hl⟩ :=
    tryMatch_sound l pre path suf rest h
  rw [hl, hpre, hsuf]
  simp
  omega

theorem tryMatch_replay (l pre path suf rest : List Char)
    (h : tryMatch l = some (pre, path, suf, rest)) (path2 : List Char) (qq : Char)
    (Y : List Char) (hp2 : path2 ≠ []) (hp2q : ∀ c ∈ path2, isQuote c = false)
    (hqq : isQuote qq = true) :
    tryMatch (pre ++ path2 ++ qq :: Y) =
      some (pre, path2, qq :: (parseOptSemi Y).1, (parseOptSemi Y).2) := by
  unfold tryMatch at h ⊢
  match h1 : branch1 l with
  | some m =>
    simp only [h1] at h
    cases h
    simp only [branch1_replay l pre path suf rest h1 path2 qq Y hp2 hp2q hqq]
  | none =>
    simp only [h1] at h
    obtain ⟨q, q2, st, hpre, hq, hp, hpq, hsuf, hq2, hst, hnone, hl⟩ :=
      branch2_sound l pre path suf rest h
    have hb2 := branch2_replay l pre path suf rest h path2 qq Y hp2 hp2q hqq
    have hb1 : branch1 (pre ++ path2 ++ qq :: Y) = none := by
      unfold branch1
      have hlit : parseLit importL (pre ++ path2 ++ qq :: Y) = none := by
        apply parseLit_none_of_take
        rw [hpre]
        have h6 : importL.length = 6 := rfl
        rw [h6]
        have htk : ((requireL ++ [q]) ++ path2 ++ qq :: Y).take 6 = requireL.take 6 := by
          rw [List.append_assoc, List.append_assoc]
          exact take_append_left (by simp [requireL])
        rw [htk]
        decide
      simp only [hlit]
    simp only [hb1, hb2]
theorem lowerFirst_eq_or (c : Char) :
    lowerFirst c = c ∨ (97 ≤ (lowerFirst c).toNat ∧ (lowerFirst c).toNat ≤ 122) := by
  by_cases h : 65 ≤ c.toNat ∧ c.toNat ≤ 90
  · right
    rw [lowerFirst_toNat_of_up c h]
    omega
  · left
    unfold lowerFirst
    rw [dif_neg h]

theorem pascalRest_chars (s : List Char) (good : Char → Bool)
    (hdash : good '-' = true)
    (hlow : ∀ c, good c = true → good (lowerFirst c) = true)
    (hs : ∀ c ∈ s, good c = true) : ∀ x ∈ pascalRest s, good x = true := by
  induction s with
  | nil => intro x hx; cases hx
  | cons c t ih =>
    intro x hx
    unfold pascalRest at hx
    rcases List.mem_append.mp hx with hx1 | hx1
    · by_cases hc : isUp c = true
      · rw [if_pos hc] at hx1
        rcases List.mem_cons.mp hx1 with he | he
        · rw [he]; exact hdash
        · have : x = lowerFirst c := by simpa using he
          rw [this]
          exact hlow c (hs c (by simp))
      · rw [if_neg hc] at hx1
        have : x = c := by simpa using hx1
        rw [this]
        exact hs c (by simp)
    · exact ih (fun d hd => hs d (by simp [hd])) x hx1

theorem pascal_to_kebab_chars (s : List Char) (good : Char → Bool)
    (hdash : good '-' = true)
    (hlow : ∀ c, good c = true → good (lowerFirst c) = true)
    (hs : ∀ c ∈ s, good c = true) : ∀ x ∈ pascal_to_kebab s, good x = true := by
  match s with
  | [] => intro x hx; cases hx
  | c :: t =>
    intro x hx
    unfold pascal_to_kebab at hx
    rcases List.mem_cons.mp hx with he | he
    · rw [he]; exact hlow c (hs c (by simp))
    · exact pascalRest_chars t good hdash hlow (fun d hd => hs d (by simp [hd])) x he

theorem camelRest_chars (s : List Char) (good : Char → Bool)
    (hdash : good '-' = true)
    (hlow : ∀ c, good c = true → good (lowerFirst c) = true)
    (hs : ∀ c ∈ s, good c = true) : ∀ x ∈ camelRest s, good x = true := by
  induction s with
  | nil => intro x hx; cases hx
  | cons c t ih =>
    intro x hx
    unfold camelRest at hx
    rcases List.mem_append.mp hx with hx1 | hx1
    · by_cases hc : isUp c = true
      · rw [if_pos hc] at hx1
        rcases List.mem_cons.mp hx1 with he | he
        · rw [he]; exact hdash
        · have : x = lowerFirst c := by simpa using he
          rw [this]
          exact hlow c (hs c (by simp))
      · rw [if_neg hc] at hx1
        have : x = c := by simpa using hx1
        rw [this]
        exact hs c (by simp)
    · exact ih (fun d hd => hs d (by simp [hd])) x hx1

theorem camel_to_kebab_chars (s : List Char) (good : Char → Bool)
    (hdash : good '-' = true)
    (hlow : ∀ c, good c = true → good (lowerFirst c) = true)
    (hs : ∀ c ∈ s, good c = true) : ∀ x ∈ camel_to_kebab s, good x = true := by
  match s with
  | [] => intro x hx; cases hx
  | c :: t =>
    intro x hx
    unfold camel_to_kebab at hx
    rcases List.mem_cons.mp hx with he | he
    · rw [he]; exact hlow c (hs c (by simp))
    · exact camelRest_chars t good hdash hlow (fun d hd => hs d (by simp [hd])) x he

theorem acronymLoop_chars (s : List Char) (good : Char → Bool)
    (hdash : good '-' = true)
    (hlow : ∀ c, good c = true → good (lowerFirst c) = true) :
    ∀ (buf : List Char) (pl : Bool), (∀ c ∈ s, good c = true) →
      (∀ c ∈ buf, good c = true) → ∀ x ∈ acronymLoop s buf pl, good x = true := by
  induction s with
  | nil =>
    intro buf pl _ hbuf x hx
    unfold acronymLoop at hx
    by_cases hb : buf ≠ []
    · rw [if_pos hb] at hx
      rcases List.mem_append.mp hx with hx1 | hx1
      · by_cases hp : pl = true
        · rw [if_pos hp] at hx1
          have : x = '-' := by simpa using hx1
          rw [this]; exact hdash
        · rw [if_neg hp] at hx1
          cases hx1
      · obtain ⟨d, hd, he⟩ := List.mem_map.mp hx1
        rw [← he]
        exact hlow d (hbuf d hd)
    · rw [if_neg hb] at hx
      cases hx
  | cons c t ih =>
    intro buf pl hs hbuf x hx
    unfold acronymLoop at hx
    by_cases hc : isUp c = true
    · rw [if_pos hc] at hx
      rcases List.mem_append.mp hx with hx1 | hx1
      · by_cases hd : buf ≠ [] ∧ pl = true
        · rw [if_pos hd] at hx1
          have : x = '-' := by simpa using hx1
          rw [this]; exact hdash
        · rw [if_neg hd] at hx1
          cases hx1
      · refine ih (buf ++ [c]) false (fun d hd => hs d (by simp [hd])) ?_ x hx1
        intro d hd
        rcases List.mem_append.mp hd with hd1 | hd1
        · exact hbuf d hd1
        · have : d = c := by simpa using hd1
          rw [this]
          exact hs c (by simp)
    · rw [if_neg hc] at hx
      rcases List.mem_append.mp hx with hx1 | hx1
      · rcases List.mem_append.mp hx1 with hx2 | hx2
        · by_cases hb : buf ≠ []
          · rw [if_pos hb] at hx2
            obtain ⟨d, hd, he⟩ := List.mem_map.mp hx2
            rw [← he]
            exact hlow d (hbuf d hd)
          · rw [if_neg hb] at hx2
            cases hx2
        · have : x = c := by simpa using hx2
          rw [this]
          exact hs c (by simp)
      · exact ih [] true (fun d hd => hs d (by simp [hd])) (by intro d hd; cases hd) x hx1

theorem smart_chars (s : List Char) (good : Char → Bool)
    (hdash : good '-' = true)
    (hlow : ∀ c, good c = true → good (lowerFirst c) = true)
    (hs : ∀ c ∈ s, good c = true) : ∀ x ∈ pascal_to_kebab_smart s, good x = true := by
  unfold pascal_to_kebab_smart
  match detect_case s with
  | Case.Kebab => exact hs
  | Case.Pascal => exact pascal_to_kebab_chars s good hdash hlow hs
  | Case.Camel => exact camel_to_kebab_chars s good hdash hlow hs
  | Case.Acronym => exact acronymLoop_chars s good hdash hlow [] false hs (by intro d hd; cases hd)

theorem acronymLoop_ne_nil (s : List Char) : ∀ (buf : List Char) (pl : Bool),
    (s ≠ [] ∨ buf ≠ []) → acronymLoop s buf pl ≠ [] := by
  induction s with
  | nil =>
    intro buf pl hor
    have hb : buf ≠ [] := by
      rcases hor with hh | hh
      · exact absurd rfl hh
      · exact hh
    unfold acronymLoop
    rw [if_pos hb]
    intro hcon
    have := List.append_eq_nil.mp hcon
    have hm := this.2
    rw [List.map_eq_nil_iff] at hm
    exact hb hm
  | cons c t ih =>
    intro buf pl _
    unfold acronymLoop
    by_cases hc : isUp c = true
    · rw [if_pos hc]
      intro hcon
      have := List.append_eq_nil.mp hcon
      exact ih (buf ++ [c]) false (Or.inr (by simp)) this.2
    · rw [if_neg hc]
      intro hcon
      have := List.append_eq_nil.mp hcon
      have := List.append_eq_nil.mp this.1
      cases this.2
theorem smart_ne_nil (s : List Char) (h : s ≠ []) : pascal_to_kebab_smart s ≠ [] := by
  unfold pascal_to_kebab_smart
  match s, h with
  | c :: t, _ =>
    match detect_case (c :: t) with
    | Case.Kebab => simp
    | Case.Pascal => simp [pascal_to_kebab]
    | Case.Camel => simp [camel_to_kebab]
    | Case.Acronym => exact acronymLoop_ne_nil (c :: t) [] false (Or.inl (by simp))

theorem lowerFirst_ne (d : Char) (hd : d.toNat < 97 ∨ 122 < d.toNat) (c : Char)
    (hc : c ≠ d) : lowerFirst c ≠ d := by
  rcases lowerFirst_eq_or c with he | hr
  · rw [he]; exact hc
  · intro hcon
    rw [hcon] at hr
    omega

theorem lowerFirst_not_quote (c : Char) (hc : (!isQuote c) = true) :
    (!isQuote (lowerFirst c)) = true := by
  simp only [Bool.not_eq_true', isQuote, Bool.or_eq_false_iff, decide_eq_false_iff_not] at hc ⊢
  exact ⟨lowerFirst_ne dq (Or.inl (by decide)) c hc.1,
    lowerFirst_ne squote (Or.inl (by decide)) c hc.2⟩

theorem lowerFirst_ne_dot (c : Char) (hc : decide (c ≠ '.') = true) :
    decide (lowerFirst c ≠ '.') = true := by
  simp only [decide_eq_true_eq] at hc ⊢
  exact lowerFirst_ne '.' (Or.inl (by decide)) c hc

theorem lowerFirst_ne_slash (c : Char) (hc : decide (c ≠ '/') = true) :
    decide (lowerFirst c ≠ '/') = true := by
  simp only [decide_eq_true_eq] at hc ⊢
  exact lowerFirst_ne '/' (Or.inl (by decide)) c hc

theorem headI_mem_of_ne {l : List (List Char)} (h : l ≠ []) : l.headI ∈ l := by
  match l with
  | [] => exact absurd rfl h
  | x :: t => simp

theorem mem_splitOnChar_subset (sep : Char) (l : List Char) :
    ∀ part ∈ splitOnChar sep l, ∀ c ∈ part, c ∈ l := by
  induction l with
  | nil =>
    intro part hp c hc
    simp [splitOnChar] at hp
    rw [hp] at hc
    cases hc
  | cons a t ih =>
    intro part hp c hc
    unfold splitOnChar at hp
    by_cases ha : a = sep
    · rw [if_pos ha] at hp
      rcases List.mem_cons.mp hp with he | he
      · rw [he] at hc; cases hc
      · exact List.mem_cons_of_mem a (ih part he c hc)
    · rw [if_neg ha] at hp
      rcases List.mem_cons.mp hp with he | he
      · rw [he] at hc
        rcases List.mem_cons.mp hc with hce | hce
        · rw [hce]; simp
        · have hh : (splitOnChar sep t).headI ∈ splitOnChar sep t :=
            headI_mem_of_ne (splitOnChar_ne_nil sep t)
          exact List.mem_cons_of_mem a (ih _ hh c hce)
      · exact List.mem_cons_of_mem a (ih part (List.mem_of_mem_tail he) c hc)

theorem splitOnChar_not_mem (sep : Char) (l : List Char) :
    ∀ part ∈ splitOnChar sep l, sep ∉ part := by
  induction l with
  | nil =>
    intro part hp
    simp [splitOnChar] at hp
    rw [hp]
    simp
  | cons a t ih =>
    intro part hp
    unfold splitOnChar at hp
    by_cases ha : a = sep
    · rw [if_pos ha] at hp
      rcases List.mem_cons.mp hp with he | he
      · rw [he]; simp
      · exact ih part he
    · rw [if_neg ha] at hp
      rcases List.mem_cons.mp hp with he | he
      · rw [he]
        intro hcon
        rcases List.mem_cons.mp hcon with hce | hce
        · exact ha hce.symm
        · exact ih _ (headI_mem_of_ne (splitOnChar_ne_nil sep t)) hce
      · exact ih part (List.mem_of_mem_tail he)

theorem splitOnChar_of_not_mem (sep : Char) (l : List Char) (h : sep ∉ l) :
    splitOnChar sep l = [l] := by
  induction l with
  | nil => rfl
  | cons a t ih =>
    have ha : ¬ (a = sep) := by
      intro hcon
      exact h (by rw [hcon]; simp)
    have ih2 := ih (fun hc => h (List.mem_cons_of_mem a hc))
    unfold splitOnChar
    rw [if_neg ha, ih2]
    rfl

theorem splitOnChar_length_one (sep : Char) (l : List Char)
    (h : (splitOnChar sep l).length = 1) : splitOnChar sep l = [l] := by
  match hs : splitOnChar sep l with
  | [] => rw [hs] at h; cases h
  | [x] =>
    have hj := joinSep_splitOnChar sep l
    rw [hs] at hj
    have : x = l := hj
    rw [this]
  | x :: y :: t => rw [hs] at h; simp at h

theorem mem_joinSep (sep : Char) (parts : List (List Char)) :
    ∀ c ∈ joinSep sep parts, c = sep ∨ ∃ p ∈ parts, c ∈ p := by
  induction parts with
  | nil => intro c hc; cases hc
  | cons x xs ih =>
    intro c hc
    match xs, hc, ih with
    | [], hc, _ =>
      right
      exact ⟨x, by simp, hc⟩
    | y :: t, hc, ih =>
      have he : joinSep sep (x :: y :: t) = x ++ sep :: joinSep sep (y :: t) := rfl
      rw [he] at hc
      rcases List.mem_append.mp hc with h1 | h1
      · right; exact ⟨x, by simp, h1⟩
      · rcases List.mem_cons.mp h1 with h2 | h2
        · left; exact h2
        · rcases ih c h2 with h3 | ⟨p, hp, hcp⟩
          · left; exact h3
          · right; exact ⟨p, by simp [hp], hcp⟩

theorem splitOnChar_joinSep (sep : Char) (parts : List (List Char))
    (hne : parts ≠ []) (h : ∀ part ∈ parts, sep ∉ part) :
    splitOnChar sep (joinSep sep parts) = parts := by
  induction parts with
  | nil => exact absurd rfl hne
  | cons x xs ih =>
    match xs, ih with
    | [], _ =>
      show splitOnChar sep (joinSep sep [x]) = [x]
      exact splitOnChar_of_not_mem sep x (h x (by simp))
    | y :: t, ih =>
      have he : joinSep sep (x :: y :: t) = x ++ sep :: joinSep sep (y :: t) := rfl
      rw [he, splitOnChar_append_sep sep x _
        (by
          intro c hc hceq
          exact (h x (by simp)) (by rw [← hceq]; exact hc))]
      rw [ih (by simp) (fun p hp => h p (by simp [hp]))]
theorem splitOnChar_len_pos (sep : Char) (l : List Char) :
    (splitOnChar sep l).length ≠ 0 := by
  intro hz
  exact (splitOnChar_ne_nil sep l) (List.length_eq_zero.mp hz)

theorem processSegment_no_change (seg : List Char)
    (h : needs_conversion (splitOnChar '.' seg).headI = false) :
    processSegment seg = (seg, 0) := by
  by_cases hdot : seg = ['.'] ∨ seg = ['.', '.']
  · rw [processSegment, if_pos hdot]
  · rw [processSegment, if_neg hdot]
    by_cases hlen : 1 < (splitOnChar '.' seg).length
    · simp only [if_pos hlen, h]
      simp
    · simp only [if_neg hlen]
      have hone : splitOnChar '.' seg = [seg] := by
        apply splitOnChar_length_one
        have := splitOnChar_len_pos '.' seg
        omega
      have hseg : needs_conversion seg = false := by
        rw [hone] at h
        simpa using h
      simp [hseg]

theorem processSegment_fst_dotted (seg : List Char)
    (hdot : ¬ (seg = ['.'] ∨ seg = ['.', '.']))
    (hlen : 1 < (splitOnChar '.' seg).length)
    (hneed : needs_conversion (splitOnChar '.' seg).headI = true) :
    (processSegment seg).1 = pascal_to_kebab_smart (splitOnChar '.' seg).headI
      ++ '.' :: joinSep '.' (splitOnChar '.' seg).tail := by
  rw [processSegment, if_neg hdot]
  simp only [if_pos hlen, hneed]
  simp

theorem processSegment_fst_undotted (seg : List Char)
    (hdot : ¬ (seg = ['.'] ∨ seg = ['.', '.']))
    (hlen : ¬ 1 < (splitOnChar '.' seg).length)
    (hneed : needs_conversion seg = true) :
    (processSegment seg).1 = pascal_to_kebab_smart seg := by
  rw [processSegment, if_neg hdot]
  simp only [if_neg hlen]
  simp [hneed]

theorem headI_dotfree (seg : List Char) : ('.' : Char) ∉ (splitOnChar '.' seg).headI :=
  splitOnChar_not_mem '.' seg _ (headI_mem_of_ne (splitOnChar_ne_nil '.' seg))

theorem smart_headI_dotfree (seg : List Char) :
    ('.' : Char) ∉ pascal_to_kebab_smart (splitOnChar '.' seg).headI := by
  intro hcon
  have hgood := smart_chars (splitOnChar '.' seg).headI (fun c => decide (c ≠ '.'))
    (by decide) lowerFirst_ne_dot
    (by
      intro c hc
      simp only [decide_eq_true_eq]
      intro hce
      exact headI_dotfree seg (hce ▸ hc))
  have := hgood '.' hcon
  simp at this

theorem processSegment_idem (seg : List Char) :
    processSegment (processSegment seg).1 = ((processSegment seg).1, 0) := by
  by_cases hdot : seg = ['.'] ∨ seg = ['.', '.']
  · have h1 : (processSegment seg).1 = seg := by rw [processSegment, if_pos hdot]
    rw [h1]
    rcases hdot with hh | hh <;> rw [hh] <;> decide
  · by_cases hlen : 1 < (splitOnChar '.' seg).length
    · by_cases hneed : needs_conversion (splitOnChar '.' seg).headI = true
      · rw [processSegment_fst_dotted seg hdot hlen hneed]
        apply processSegment_no_change
        rw [splitOnChar_append_sep '.' _ _
          (by
            intro c hc hce
            exact smart_headI_dotfree seg (hce ▸ hc))]
        show needs_conversion (pascal_to_kebab_smart (splitOnChar '.' seg).headI) = false
        exact smart_no_upper _
      · have h1 : processSegment seg = (seg, 0) :=
          processSegment_no_change seg (by simpa using hneed)
        rw [h1]
        exact processSegment_no_change seg (by simpa using hneed)
    · by_cases hneed : needs_conversion seg = true
      · have hone : splitOnChar '.' seg = [seg] := by
          apply splitOnChar_length_one
          have := splitOnChar_len_pos '.' seg
          omega
        have hsegdot : ('.' : Char) ∉ seg := by
          have := splitOnChar_not_mem '.' seg seg (by rw [hone]; simp)
          exact this
        rw [processSegment_fst_undotted seg hdot hlen hneed]
        apply processSegment_no_change
        have hsm : ('.' : Char) ∉ pascal_to_kebab_smart seg := by
          intro hcon
          have hgood := smart_chars seg (fun c => decide (c ≠ '.'))
            (by decide) lowerFirst_ne_dot
            (by
              intro c hc
              simp only [decide_eq_true_eq]
              intro hce
              exact hsegdot (hce ▸ hc))
          have := hgood '.' hcon
          simp at this
        rw [splitOnChar_of_not_mem '.' _ hsm]
        show needs_conversion (pascal_to_kebab_smart seg) = false
        exact smart_no_upper seg
      · have hone : splitOnChar '.' seg = [seg] := by
          apply splitOnChar_length_one
          have := splitOnChar_len_pos '.' seg
          omega
        have h1 : processSegment seg = (seg, 0) := by
          apply processSegment_no_change
          rw [hone]
          simpa using hneed
        rw [h1]
        apply processSegment_no_change
        rw [hone]
        simpa using hneed

theorem processSegment_chars (seg : List Char) (good : Char → Bool)
    (hdash : good '-' = true) (hdot : good '.' = true)
    (hlow : ∀ c, good c = true → good (lowerFirst c) = true)
    (hs : ∀ c ∈ seg, good c = true) : ∀ x ∈ (processSegment seg).1, good x = true := by
  by_cases hd : seg = ['.'] ∨ seg = ['.', '.']
  · have h1 : (processSegment seg).1 = seg := by rw [processSegment, if_pos hd]
    rw [h1]
    exact hs
  · by_cases hlen : 1 < (splitOnChar '.' seg).length
    · by_cases hneed : needs_conversion (splitOnChar '.' seg).headI = true
      · rw [processSegment_fst_dotted seg hd hlen hneed]
        intro x hx
        rcases List.mem_append.mp hx with hx1 | hx1
        · refine smart_chars _ good hdash hlow ?_ x hx1
          intro c hc
          exact hs c (mem_splitOnChar_subset '.' seg _
            (headI_mem_of_ne (splitOnChar_ne_nil '.' seg)) c hc)
        · rcases List.mem_cons.mp hx1 with he | he
          · rw [he]; exact hdot
          · rcases mem_joinSep '.' _ x he with he2 | ⟨p, hp, hxp⟩
            · rw [he2]; exact hdot
            · exact hs x (mem_splitOnChar_subset '.' seg p (List.mem_of_mem_tail hp) x hxp)
      · have h1 : processSegment seg = (seg, 0) :=
          processSegment_no_change seg (by simpa using hneed)
        rw [h1]
        exact hs
    · by_cases hneed : needs_conversion seg = true
      · rw [processSegment_fst_undotted seg hd hlen hneed]
        exact smart_chars seg good hdash hlow hs
      · have hone : splitOnChar '.' seg = [seg] := by
          apply splitOnChar_length_one
          have := splitOnChar_len_pos '.' seg
          omega
        have h1 : processSegment seg = (seg, 0) := by
          apply processSegment_no_change
          rw [hone]
          simpa using hneed
        rw [h1]
        exact hs

theorem processSegment_ne_nil (seg : List Char) (h : seg ≠ []) :
    (processSegment seg).1 ≠ [] := by
  by_cases hd : seg = ['.'] ∨ seg = ['.', '.']
  · have h1 : (processSegment seg).1 = seg := by rw [processSegment, if_pos hd]
    rw [h1]
    exact h
  · by_cases hlen : 1 < (splitOnChar '.' seg).length
    · by_cases hneed : needs_conversion (splitOnChar '.' seg).headI = true
      · rw [processSegment_fst_dotted seg hd hlen hneed]
        simp
      · have h1 : processSegment seg = (seg, 0) :=
          processSegment_no_change seg (by simpa using hneed)
        rw [h1]
        exact h
    · by_cases hneed : needs_conversion seg = true
      · rw [processSegment_fst_undotted seg hd hlen hneed]
        exact smart_ne_nil seg h
      · have hone : splitOnChar '.' seg = [seg] := by
          apply splitOnChar_length_one
          have := splitOnChar_len_pos '.' seg
          omega
        have h1 : processSegment seg = (seg, 0) := by
          apply processSegment_no_change
          rw [hone]
          simpa using hneed
        rw [h1]
        exact h
theorem processPath_eval (p : List Char) :
    processPath p
      = (joinSep '/' ((splitOnChar '/' p).map (fun s => (processSegment s).1)),
         ((splitOnChar '/' p).map (fun s => (processSegment s).2)).sum) := by
  show (joinSep '/' (List.map Prod.fst (List.map processSegment (splitOnChar '/' p))),
      (List.map Prod.snd (List.map processSegment (splitOnChar '/' p))).sum) = _
  rw [List.map_map, List.map_map]
  rfl

theorem processPath_fst (p : List Char) :
    (processPath p).1
      = joinSep '/' ((splitOnChar '/' p).map (fun s => (processSegment s).1)) := by
  rw [processPath_eval]

theorem processPath_outs_slashfree (p : List Char) :
    ∀ o ∈ (splitOnChar '/' p).map (fun s => (processSegment s).1), ('/' : Char) ∉ o := by
  intro o ho
  obtain ⟨s, hsm, hse⟩ := List.mem_map.mp ho
  intro hcon
  have hchars := processSegment_chars s (fun c => decide (c ≠ '/')) (by decide) (by decide)
    lowerFirst_ne_slash
    (by
      intro c hc
      simp only [decide_eq_true_eq]
      intro hce
      exact (splitOnChar_not_mem '/' p s hsm) (hce ▸ hc))
  have := hchars '/' (by rw [hse]; exact hcon)
  simp at this

theorem processPath_idem (p : List Char) :
    processPath (processPath p).1 = ((processPath p).1, 0) := by
  have hne : (splitOnChar '/' p).map (fun s => (processSegment s).1) ≠ [] := by
    intro hcon
    rw [List.map_eq_nil_iff] at hcon
    exact splitOnChar_ne_nil '/' p hcon
  have hsj := splitOnChar_joinSep '/' _ hne (processPath_outs_slashfree p)
  rw [processPath_fst p, processPath_eval, hsj]
  simp only [Prod.mk.injEq]
  constructor
  · congr 1
    conv_rhs => rw [← List.map_id (List.map (fun s => (processSegment s).1) (splitOnChar '/' p))]
    apply List.map_congr_left
    intro o ho
    obtain ⟨s, hsm, hse⟩ := List.mem_map.mp ho
    rw [← hse]
    rw [processSegment_idem s]
    rfl
  · apply List.sum_eq_zero
    intro x hx
    obtain ⟨o, ho, he⟩ := List.mem_map.mp hx
    obtain ⟨s, hsm, hse⟩ := List.mem_map.mp ho
    rw [← he, ← hse]
    show (processSegment ((processSegment s).1)).2 = 0
    rw [processSegment_idem s]

theorem processPath_quote_free (p : List Char) (hs : ∀ c ∈ p, isQuote c = false) :
    ∀ x ∈ (processPath p).1, isQuote x = false := by
  rw [processPath_fst]
  intro x hx
  rcases mem_joinSep '/' _ x hx with he | ⟨o, ho, hxo⟩
  · rw [he]; decide
  · obtain ⟨s, hsm, hse⟩ := List.mem_map.mp ho
    have hchars := processSegment_chars s (fun c => !isQuote c) (by decide) (by decide)
      lowerFirst_not_quote
      (fun c hc => by
        simp only [Bool.not_eq_true']
        exact hs c (mem_splitOnChar_subset '/' p s hsm c hc))
    have := hchars x (by rw [hse]; exact hxo)
    simpa using this

theorem processPath_ne_nil (p : List Char) (h : p ≠ []) : (processPath p).1 ≠ [] := by
  rw [processPath_fst]
  match hsp : splitOnChar '/' p with
  | [] => exact absurd hsp (splitOnChar_ne_nil '/' p)
  | [s] =>
    have hsep : s = p := by
      have hj := joinSep_splitOnChar '/' p
      rw [hsp] at hj
      exact hj
    show joinSep '/' [(processSegment s).1] ≠ []
    show (processSegment s).1 ≠ []
    apply processSegment_ne_nil
    rw [hsep]
    exact h
  | s1 :: s2 :: t =>
    have he : joinSep '/' ((processSegment s1).1 ::
        ((processSegment s2).1 :: t.map (fun s => (processSegment s).1)))
        = (processSegment s1).1 ++ '/' :: joinSep '/'
            ((processSegment s2).1 :: t.map (fun s => (processSegment s).1)) := rfl
    show joinSep '/' ((processSegment s1).1 ::
        ((processSegment s2).1 :: t.map (fun s => (processSegment s).1))) ≠ []
    rw [he]
    intro hcon
    have := List.append_eq_nil.mp hcon
    cases this.2
theorem gapsQ_ne_nil (l : List Char) : gapsQ l ≠ [] := by
  match l with
  | [] => simp [gapsQ]
  | c :: t =>
    by_cases h : isQuote c = true <;> simp [gapsQ, h]

theorem gapsQ_headI (l : List Char) : (gapsQ l).headI = firstGap l := by
  induction l with
  | nil => rfl
  | cons c t ih =>
    simp only [gapsQ, firstGap, List.takeWhile_cons]
    by_cases h : isQuote c = true
    · simp [h]
    · simp only [h, Bool.not_false, if_true, Bool.false_eq_true, if_false]
      show c :: (gapsQ t).headI = c :: List.takeWhile (fun c => !isQuote c) t
      rw [ih]
      rfl

theorem firstGap_append_quote (x : List Char) (q : Char) (y : List Char)
    (hx : ∀ c ∈ x, isQuote c = false) (hq : isQuote q = true) :
    firstGap (x ++ q :: y) = x := by
  unfold firstGap
  exact (takeWhile_append_stop x (q :: y) (fun c hc => by simp [hx c hc])
    (by intro d hd; cases hd; simp [hq])).1

theorem quotesOf_append (a b : List Char) : quotesOf (a ++ b) = quotesOf a ++ quotesOf b := by
  simp [quotesOf, List.filter_append]

theorem quotesOf_no_quote (x : List Char) (hx : ∀ c ∈ x, isQuote c = false) :
    quotesOf x = [] := by
  unfold quotesOf
  rw [List.filter_eq_nil_iff]
  intro c hc
  simp [hx c hc]

theorem quotesOf_cons_quote (q : Char) (y : List Char) (hq : isQuote q = true) :
    quotesOf (q :: y) = q :: quotesOf y := by
  unfold quotesOf
  rw [List.filter_cons_of_pos hq]

theorem gapsQ_append_quote (x : List Char) (q : Char) (y : List Char)
    (hx : ∀ c ∈ x, isQuote c = false) (hq : isQuote q = true) :
    gapsQ (x ++ q :: y) = x :: gapsQ y := by
  induction x with
  | nil =>
    simp only [List.nil_append, gapsQ, if_pos hq]
  | cons a t ih =>
    have ha : isQuote a = false := hx a (by simp)
    have iht := ih (fun c hc => hx c (by simp [hc]))
    rw [List.cons_append]
    show (if isQuote a then [] :: gapsQ (t ++ q :: y)
      else (a :: (gapsQ (t ++ q :: y)).headI) :: (gapsQ (t ++ q :: y)).tail) = (a :: t) :: gapsQ y
    rw [iht, if_neg (by simp [ha])]
    simp

theorem gapsQ_append_nq (x : List Char) (y : List Char)
    (hx : ∀ c ∈ x, isQuote c = false) :
    gapsQ (x ++ y) = (x ++ (gapsQ y).headI) :: (gapsQ y).tail := by
  induction x with
  | nil =>
    rw [List.nil_append]
    obtain ⟨g, gs, hg⟩ : ∃ g gs, gapsQ y = g :: gs := by
      match hs : gapsQ y with
      | [] => exact absurd hs (gapsQ_ne_nil y)
      | g :: gs => exact ⟨g, gs, rfl⟩
    rw [hg]
    simp
  | cons a t ih =>
    have ha : isQuote a = false := hx a (by simp)
    have iht := ih (fun c hc => hx c (by simp [hc]))
    rw [List.cons_append]
    show (if isQuote a then [] :: gapsQ (t ++ y)
      else (a :: (gapsQ (t ++ y)).headI) :: (gapsQ (t ++ y)).tail)
      = (a :: t ++ (gapsQ y).headI) :: (gapsQ y).tail
    rw [iht, if_neg (by simp [ha])]
    simp

theorem empRel_tail {l1 l2 : List (List Char)} (h : EmpRel l1 l2) :
    EmpRel l1.tail l2.tail := by
  cases h with
  | nil => exact List.Forall₂.nil
  | cons hr ht => exact ht

theorem empRel_refl (l : List (List Char)) : EmpRel l l := by
  unfold EmpRel
  rw [List.forall₂_same]
  intro x _
  rfl
theorem scanF_some_fst (n : Nat) (c : Char) (cs pre path suf rest : List Char)
    (h : tryMatch (c :: cs) = some (pre, path, suf, rest)) :
    (scanF (n + 1) (c :: cs)).1 = pre ++ (processPath path).1 ++ suf ++ (scanF n rest).1 := by
  simp only [scanF, h]

theorem scanF_some_snd (n : Nat) (c : Char) (cs pre path suf rest : List Char)
    (h : tryMatch (c :: cs) = some (pre, path, suf, rest)) :
    (scanF (n + 1) (c :: cs)).2 = (processPath path).2 + (scanF n rest).2 := by
  simp only [scanF, h]

theorem scanF_none_fst (n : Nat) (c : Char) (cs : List Char)
    (h : tryMatch (c :: cs) = none) :
    (scanF (n + 1) (c :: cs)).1 = c :: (scanF n cs).1 := by
  simp only [scanF, h]

theorem scanF_none_snd (n : Nat) (c : Char) (cs : List Char)
    (h : tryMatch (c :: cs) = none) :
    (scanF (n + 1) (c :: cs)).2 = (scanF n cs).2 := by
  simp only [scanF, h]

theorem quotesOf_gap_quote (x : List Char) (q : Char) (y : List Char)
    (hx : ∀ c ∈ x, isQuote c = false) (hq : isQuote q = true) :
    quotesOf (x ++ q :: y) = q :: quotesOf y := by
  rw [quotesOf_append, quotesOf_no_quote x hx, quotesOf_cons_quote q y hq]
  rfl

theorem firstGap_cons_nq (c : Char) (t : List Char) (hc : isQuote c = false) :
    firstGap (c :: t) = c :: firstGap t := by
  simp [firstGap, List.takeWhile_cons, hc]

theorem firstGap_cons_quote (c : Char) (t : List Char) (hc : isQuote c = true) :
    firstGap (c :: t) = [] := by
  simp [firstGap, List.takeWhile_cons, hc]

theorem quotesOf_cons_nq (c : Char) (t : List Char) (hc : isQuote c = false) :
    quotesOf (c :: t) = quotesOf t := by
  simp [quotesOf, List.filter_cons, hc]

theorem gapsQ_cons_quote (c : Char) (t : List Char) (hc : isQuote c = true) :
    gapsQ (c :: t) = [] :: gapsQ t := by
  simp [gapsQ, hc]

theorem gapsQ_cons_nq (c : Char) (t : List Char) (hc : isQuote c = false) :
    gapsQ (c :: t) = (c :: (gapsQ t).headI) :: (gapsQ t).tail := by
  simp [gapsQ, hc]

theorem scanF_skeleton (n : Nat) : ∀ l : List Char,
    (scanF n l).1.head? = l.head? ∧
    firstGap (scanF n l).1 = firstGap l ∧
    quotesOf (scanF n l).1 = quotesOf l ∧
    EmpRel (gapsQ l) (gapsQ (scanF n l).1) := by
  induction n with
  | zero => intro l; exact ⟨rfl, rfl, rfl, empRel_refl _⟩
  | succ n ih =>
    intro l
    match l with
    | [] => exact ⟨rfl, rfl, rfl, empRel_refl _⟩
    | c :: cs =>
      match htm : tryMatch (c :: cs) with
      | some (pre, path, suf, rest) =>
        obtain ⟨body, q, q2, st, hpre, hbody, hbq, hq, hpath, hpq, hsuf, hq2, hstq, hnone, hl⟩ :=
          tryMatch_sound (c :: cs) pre path suf rest htm
        obtain ⟨hh, hfg, hqs, hemp⟩ := ih rest
        have hp2ne : (processPath path).1 ≠ [] := processPath_ne_nil path hpath
        have hp2q : ∀ x ∈ (processPath path).1, isQuote x = false :=
          processPath_quote_free path hpq
        have hLn : c :: cs = body ++ q :: (path ++ q2 :: (st ++ rest)) := by
          rw [hl, hpre, hsuf]
          simp [List.append_assoc]
        have hOn : pre ++ (processPath path).1 ++ (suf ++ (scanF n rest).1) =
            body ++ q :: ((processPath path).1 ++ q2 :: (st ++ (scanF n rest).1)) := by
          rw [hpre, hsuf]
          simp [List.append_assoc]
        have hfst := scanF_some_fst n c cs pre path suf rest htm
        rw [List.append_assoc (pre ++ (processPath path).1) suf ((scanF n rest).1), hOn] at hfst
        refine ⟨?_, ?_, ?_, ?_⟩
        · rw [hfst, hLn]
          exact head_append_cons body q _ _
        · rw [hfst, hLn]
          rw [firstGap_append_quote body q
            ((processPath path).1 ++ q2 :: (st ++ (scanF n rest).1)) hbq hq]
          rw [firstGap_append_quote body q (path ++ q2 :: (st ++ rest)) hbq hq]
        · rw [hfst, hLn]
          rw [quotesOf_gap_quote body q
            ((processPath path).1 ++ q2 :: (st ++ (scanF n rest).1)) hbq hq]
          rw [quotesOf_gap_quote body q (path ++ q2 :: (st ++ rest)) hbq hq]
          rw [quotesOf_gap_quote (processPath path).1 q2 (st ++ (scanF n rest).1) hp2q hq2]
          rw [quotesOf_gap_quote path q2 (st ++ rest) hpq hq2]
          rw [quotesOf_append st (scanF n rest).1, quotesOf_append st rest,
            quotesOf_no_quote st hstq]
          rw [hqs]
        · rw [hfst, hLn]
          rw [gapsQ_append_quote body q
            ((processPath path).1 ++ q2 :: (st ++ (scanF n rest).1)) hbq hq]
          rw [gapsQ_append_quote body q (path ++ q2 :: (st ++ rest)) hbq hq]
          rw [gapsQ_append_quote (processPath path).1 q2 (st ++ (scanF n rest).1) hp2q hq2]
          rw [gapsQ_append_quote path q2 (st ++ rest) hpq hq2]
          rw [gapsQ_append_nq st (scanF n rest).1 hstq]
          rw [gapsQ_append_nq st rest hstq]
          have he : st ++ (gapsQ rest).headI = st ++ (gapsQ (scanF n rest).1).headI := by
            rw [gapsQ_headI rest, gapsQ_headI (scanF n rest).1, hfg]
          refine List.Forall₂.cons Iff.rfl (List.Forall₂.cons ?_ (List.Forall₂.cons ?_ ?_))
          · exact ⟨fun hp => absurd hp hpath, fun hp => absurd hp hp2ne⟩
          · rw [he]
          · exact empRel_tail hemp
      | none =>
        obtain ⟨hh, hfg, hqs, hemp⟩ := ih cs
        have hfst := scanF_none_fst n c cs htm
        refine ⟨?_, ?_, ?_, ?_⟩
        · rw [hfst]
          rfl
        · rw [hfst]
          by_cases hc : isQuote c = true
          · rw [firstGap_cons_quote c ((scanF n cs).1) hc, firstGap_cons_quote c cs hc]
          · rw [firstGap_cons_nq c ((scanF n cs).1) (by simpa using hc),
              firstGap_cons_nq c cs (by simpa using hc), hfg]
        · rw [hfst]
          by_cases hc : isQuote c = true
          · rw [quotesOf_cons_quote c ((scanF n cs).1) hc, quotesOf_cons_quote c cs hc, hqs]
          · rw [quotesOf_cons_nq c ((scanF n cs).1) (by simpa using hc),
              quotesOf_cons_nq c cs (by simpa using hc), hqs]
        · rw [hfst]
          by_cases hc : isQuote c = true
          · rw [gapsQ_cons_quote c ((scanF n cs).1) hc, gapsQ_cons_quote c cs hc]
            exact List.Forall₂.cons Iff.rfl hemp
          · rw [gapsQ_cons_nq c ((scanF n cs).1) (by simpa using hc),
              gapsQ_cons_nq c cs (by simpa using hc)]
            refine List.Forall₂.cons ?_ (empRel_tail hemp)
            exact ⟨fun hp => List.noConfusion hp, fun hp => List.noConfusion hp⟩
theorem branch1_trailer (l pre path suf rest : List Char)
    (h : branch1 l = some (pre, path, suf, rest)) :
    ∃ q2 st, suf = q2 :: st ∧
      ((st = [] ∧ ∀ d, rest.head? = some d → (d = ')' ∨ d = ';') → False) ∨
        ∃ d, st = [d] ∧ (d = ')' ∨ d = ';')) := by
  unfold branch1 at h
  match h1 : parseLit importL l with
  | none => simp only [h1] at h; cases h
  | some r1 =>
    simp only [h1] at h
    match h2 : parseWsPlus r1 with
    | none => simp only [h2] at h; cases h
    | some (w, r2) =>
      simp only [h2] at h
      match h3 : parseOptType r2 with
      | (t, r3) =>
        simp only [h3] at h
        match h4 : lazyFrom r3 with
        | none => simp only [h4] at h; cases h
        | some (con, q, r4) =>
          simp only [h4] at h
          match h5 : parsePath r4 with
          | none => simp only [h5] at h; cases h
          | some (p0, q2, r5) =>
            simp only [h5] at h
            match h6 : parseOptSemi r5 with
            | (st, r6) =>
              have hos := parseOptSemi_sound r5 st r6 h6
              simp only [h6] at h
              cases h
              refine ⟨q2, st, rfl, ?_⟩
              rcases hos.2 with ⟨hst, hnone⟩ | ⟨e, he, hor⟩
              · exact Or.inl ⟨hst, hnone⟩
              · exact Or.inr ⟨e, he, hor⟩

theorem branch2_trailer (l pre path suf rest : List Char)
    (h : branch2 l = some (pre, path, suf, rest)) :
    ∃ q2 st, suf = q2 :: st ∧
      ((st = [] ∧ ∀ d, rest.head? = some d → (d = ')' ∨ d = ';') → False) ∨
        ∃ d, st = [d] ∧ (d = ')' ∨ d = ';')) := by
  unfold branch2 at h
  match h1 : parseLit requireL l with
  | none => simp only [h1] at h; cases h
  | some r1 =>
    simp only [h1] at h
    match hr1 : r1 with
    | [] => simp at h
    | c :: r2 =>
      simp only [] at h
      by_cases hcq : isQuote c = true
      · rw [if_pos hcq] at h
        match h2 : parsePath r2 with
        | none => simp only [h2] at h; cases h
        | some (p0, q2, r3) =>
          simp only [h2] at h
          match h3 : parseOptSemi r3 with
          | (st, r4) =>
            have hos := parseOptSemi_sound r3 st r4 h3
            simp only [h3] at h
            cases h
            refine ⟨q2, st, rfl, ?_⟩
            rcases hos.2 with ⟨hst, hnone⟩ | ⟨e, he, hor⟩
            · exact Or.inl ⟨hst, hnone⟩
            · exact Or.inr ⟨e, he, hor⟩
      · rw [if_neg hcq] at h
        cases h

theorem tryMatch_trailer (l pre path suf rest : List Char)
    (h : tryMatch l = some (pre, path, suf, rest)) :
    ∃ q2 st, suf = q2 :: st ∧
      ((st = [] ∧ ∀ d, rest.head? = some d → (d = ')' ∨ d = ';') → False) ∨
        ∃ d, st = [d] ∧ (d = ')' ∨ d = ';')) := by
  unfold tryMatch at h
  match h1 : branch1 l with
  | some m =>
    simp only [h1] at h
    cases h
    exact branch1_trailer l pre path suf rest h1
  | none =>
    simp only [h1] at h
    exact branch2_trailer l pre path suf rest h

theorem firstGap_no_quote (l : List Char) : ∀ c ∈ firstGap l, isQuote c = false := by
  induction l with
  | nil => intro c hc; cases hc
  | cons a t ih =>
    by_cases ha : isQuote a = true
    · rw [firstGap_cons_quote a t ha]
      intro c hc
      cases hc
    · rw [firstGap_cons_nq a t (by simpa using ha)]
      intro c hc
      rcases List.mem_cons.mp hc with he | he
      · rw [he]
        simpa using ha
      · exact ih c he

theorem firstQuote_decomp (l : List Char) (q : Char) (qs : List Char)
    (hq : quotesOf l = q :: qs) :
    ∃ Z, l = firstGap l ++ q :: Z ∧ quotesOf Z = qs := by
  induction l with
  | nil => cases hq
  | cons c t ih =>
    by_cases hc : isQuote c = true
    · rw [quotesOf_cons_quote c t hc] at hq
      injection hq with hcq hqs
      refine ⟨t, ?_, hqs⟩
      rw [firstGap_cons_quote c t hc, hcq]
      rfl
    · rw [quotesOf_cons_nq c t (by simpa using hc)] at hq
      obtain ⟨Z, hZ1, hZ2⟩ := ih hq
      refine ⟨Z, ?_, hZ2⟩
      rw [firstGap_cons_nq c t (by simpa using hc), List.cons_append, ← hZ1]
theorem tryMatch_congr_some (l l2 pre path suf rest : List Char)
    (h2 : tryMatch l2 = some (pre, path, suf, rest))
    (hfg : firstGap l2 = firstGap l)
    (hqs : quotesOf l2 = quotesOf l)
    (hemp : EmpRel (gapsQ l) (gapsQ l2)) :
    tryMatch l ≠ none := by
  obtain ⟨body, q, q2, st, hpre, hbody, hbq, hq, hpath, hpq, hsuf, hq2, hstq, hnone, hl2⟩ :=
    tryMatch_sound l2 pre path suf rest h2
  have hl2n : l2 = body ++ q :: (path ++ q2 :: (st ++ rest)) := by
    rw [hl2, hpre, hsuf]
    simp [List.append_assoc]
  have hfgl : firstGap l = body := by
    rw [← hfg, hl2n, firstGap_append_quote body q _ hbq hq]
  have hql : quotesOf l = q :: (q2 :: quotesOf rest) := by
    rw [← hqs, hl2n, quotesOf_gap_quote body q _ hbq hq,
      quotesOf_gap_quote path q2 _ hpq hq2,
      quotesOf_append st rest, quotesOf_no_quote st hstq]
    rfl
  obtain ⟨Z, hZ1, hZ2⟩ := firstQuote_decomp l q (q2 :: quotesOf rest) hql
  rw [hfgl] at hZ1
  obtain ⟨W, hW1, hW2⟩ := firstQuote_decomp Z q2 (quotesOf rest) hZ2
  obtain ⟨P, hP⟩ : ∃ P, firstGap Z = P := ⟨_, rfl⟩
  rw [hP] at hW1
  have hgl : gapsQ l = body :: gapsQ Z := by
    rw [hZ1, gapsQ_append_quote body q Z hbq hq]
  have hgl2 : gapsQ l2 = body :: path :: (st ++ (gapsQ rest).headI) :: (gapsQ rest).tail := by
    rw [hl2n, gapsQ_append_quote body q _ hbq hq,
      gapsQ_append_quote path q2 _ hpq hq2, gapsQ_append_nq st rest hstq]
  rw [hgl, hgl2] at hemp
  obtain ⟨g, gs, hg⟩ : ∃ g gs, gapsQ Z = g :: gs := by
    match hs : gapsQ Z with
    | [] => exact absurd hs (gapsQ_ne_nil Z)
    | g :: gs => exact ⟨g, gs, rfl⟩
  rw [hg] at hemp
  have hgP : g = P := by
    have hgheadI := gapsQ_headI Z
    rw [hg, hP] at hgheadI
    simpa using hgheadI
  have hPne : P ≠ [] := by
    intro hfz
    cases hemp with
    | cons hpair hrest =>
      cases hrest with
      | cons hpair2 hrest2 =>
        apply hpath
        apply hpair2.mp
        rw [hgP, hfz]
  have hPq : ∀ c ∈ P, isQuote c = false := hP ▸ firstGap_no_quote Z
  have hrep := tryMatch_replay l2 pre path suf rest h2 P q2 W hPne hPq hq2
  have hle : l = pre ++ P ++ q2 :: W := by
    rw [hZ1, hpre, hW1]
    simp [List.append_assoc]
  rw [← hle] at hrep
  rw [hrep]
  simp

theorem tryMatch_none_transfer (l l2 : List Char)
    (hfg : firstGap l2 = firstGap l)
    (hqs : quotesOf l2 = quotesOf l)
    (hemp : EmpRel (gapsQ l) (gapsQ l2))
    (hn : tryMatch l = none) : tryMatch l2 = none := by
  match h2 : tryMatch l2 with
  | none => rfl
  | some (pre, path, suf, rest) =>
    exact absurd hn (tryMatch_congr_some l l2 pre path suf rest h2 hfg hqs hemp)
theorem scanF_nil (n : Nat) : scanF n ([] : List Char) = ([], 0) := by
  cases n <;> rfl

theorem scanF_fuel (n : Nat) : ∀ l : List Char, l.length ≤ n → ∀ m, l.length ≤ m →
    scanF n l = scanF m l := by
  induction n with
  | zero =>
    intro l hl m hm
    cases l with
    | nil => rw [scanF_nil 0, scanF_nil m]
    | cons a t =>
      simp only [List.length_cons] at hl
      exact absurd hl (by omega)
  | succ n ih =>
    intro l hl m hm
    cases l with
    | nil => rw [scanF_nil (n + 1), scanF_nil m]
    | cons c cs =>
      have hm1 : 1 ≤ m := by
        simp only [List.length_cons] at hm
        omega
      obtain ⟨m', rfl⟩ : ∃ m', m = m' + 1 := ⟨m - 1, by omega⟩
      match htm : tryMatch (c :: cs) with
      | some (pre, path, suf, rest) =>
        have hlt := tryMatch_rest_lt (c :: cs) pre path suf rest htm
        have hr1 : rest.length ≤ n := by
          simp only [List.length_cons] at hlt hl
          omega
        have hr2 : rest.length ≤ m' := by
          simp only [List.length_cons] at hlt hm
          omega
        simp only [scanF, htm]
        rw [ih rest hr1 m' hr2]
      | none =>
        have hc1 : cs.length ≤ n := by
          simp only [List.length_cons] at hl
          omega
        have hc2 : cs.length ≤ m' := by
          simp only [List.length_cons] at hm
          omega
        simp only [scanF, htm]
        rw [ih cs hc1 m' hc2]

theorem scanF_idem (n : Nat) : ∀ l : List Char, l.length ≤ n →
    ∀ m, (scanF n l).1.length ≤ m → scanF m (scanF n l).1 = ((scanF n l).1, 0) := by
  induction n with
  | zero =>
    intro l hl m hm
    cases l with
    | nil => exact scanF_nil m
    | cons a t =>
      simp only [List.length_cons] at hl
      exact absurd hl (by omega)
  | succ n ih =>
    intro l hl m hm
    cases l with
    | nil => exact scanF_nil m
    | cons c cs =>
      have hl' : cs.length ≤ n := by
        simp only [List.length_cons] at hl
        omega
      match htm : tryMatch (c :: cs) with
      | some (pre, path, suf, rest) =>
        obtain ⟨body, q, q2, st, hpre, hbody, hbq, hq, hpath, hpq, hsuf, hq2, hstq, hnone0, hl2⟩ :=
          tryMatch_sound (c :: cs) pre path suf rest htm
        obtain ⟨q2t, stt, hsuft, htrail⟩ := tryMatch_trailer (c :: cs) pre path suf rest htm
        rw [hsuf] at hsuft
        injection hsuft with he1 he2
        subst he1
        subst he2
        have hrlt := tryMatch_rest_lt (c :: cs) pre path suf rest htm
        have hrle : rest.length ≤ n := by
          simp only [List.length_cons] at hrlt hl
          omega
        obtain ⟨hh, hfgr, hqsr, hempr⟩ := scanF_skeleton n rest
        have hp2ne : (processPath path).1 ≠ [] := processPath_ne_nil path hpath
        have hp2q : ∀ x ∈ (processPath path).1, isQuote x = false :=
          processPath_quote_free path hpq
        have hsemi : parseOptSemi (st ++ (scanF n rest).1) = (st, (scanF n rest).1) := by
          rcases htrail with ⟨hst0, hnone⟩ | ⟨d, hstd, hdor⟩
          · rw [hst0, List.nil_append]
            apply parseOptSemi_skip
            intro d hd hdor
            rw [hh] at hd
            exact hnone d hd hdor
          · rw [hstd]
            exact parseOptSemi_semi d _ hdor
        have hrep := tryMatch_replay (c :: cs) pre path suf rest htm
          (processPath path).1 q2 (st ++ (scanF n rest).1) hp2ne hp2q hq2
        rw [hsemi] at hrep
        have hofst := scanF_some_fst n c cs pre path suf rest htm
        have hoeq : (scanF (n + 1) (c :: cs)).1 =
            pre ++ (processPath path).1 ++ q2 :: (st ++ (scanF n rest).1) := by
          rw [hofst, hsuf]
          simp [List.append_assoc]
        rw [← hoeq] at hrep
        obtain ⟨b, bt, hbcons⟩ : ∃ b bt, body = b :: bt := by
          match hb : body with
          | [] => exact absurd rfl hbody
          | b :: bt => exact ⟨b, bt, rfl⟩
        have hocons : (scanF (n + 1) (c :: cs)).1 =
            b :: (bt ++ [q] ++ (processPath path).1 ++ q2 :: (st ++ (scanF n rest).1)) := by
          rw [hoeq, hpre, hbcons]
          simp [List.append_assoc]
        have hmlen : 1 ≤ m := by
          rw [hocons] at hm
          simp only [List.length_cons] at hm
          omega
        obtain ⟨m', rfl⟩ : ∃ m', m = m' + 1 := ⟨m - 1, by omega⟩
        have hrestlen : (scanF n rest).1.length ≤ m' := by
          rw [hoeq, hpre] at hm
          simp only [List.length_append, List.length_cons, List.length_nil] at hm
          omega
        have htm2 : tryMatch (b :: (bt ++ [q] ++ (processPath path).1 ++
            q2 :: (st ++ (scanF n rest).1))) =
            some (pre, (processPath path).1, q2 :: st, (scanF n rest).1) := by
          rw [← hocons]
          exact hrep
        have hfst2 := scanF_some_fst m' b _ pre (processPath path).1 (q2 :: st)
          (scanF n rest).1 htm2
        have hsnd2 := scanF_some_snd m' b _ pre (processPath path).1 (q2 :: st)
          (scanF n rest).1 htm2
        have hpp1 : (processPath (processPath path).1).1 = (processPath path).1 := by
          rw [processPath_idem path]
        have hpp2 : (processPath (processPath path).1).2 = 0 := by
          rw [processPath_idem path]
        have hihrest := ih rest hrle m' hrestlen
        have hih1 : (scanF m' (scanF n rest).1).1 = (scanF n rest).1 := by
          rw [hihrest]
        have hih2 : (scanF m' (scanF n rest).1).2 = 0 := by
          rw [hihrest]
        have h1 : (scanF (m' + 1) (scanF (n + 1) (c :: cs)).1).1 =
            (scanF (n + 1) (c :: cs)).1 := by
          rw [hocons, hfst2, hpp1, hih1, hpre, hbcons]
          simp [List.append_assoc]
        have h2 : (scanF (m' + 1) (scanF (n + 1) (c :: cs)).1).2 = 0 := by
          rw [hocons, hsnd2, hpp2, hih2]
        exact Prod.ext_iff.mpr ⟨h1, h2⟩
      | none =>
        obtain ⟨hh, hfgs, hqss, hemps⟩ := scanF_skeleton (n + 1) (c :: cs)
        have htm2 : tryMatch (scanF (n + 1) (c :: cs)).1 = none :=
          tryMatch_none_transfer (c :: cs) (scanF (n + 1) (c :: cs)).1 hfgs hqss hemps htm
        have hofst := scanF_none_fst n c cs htm
        rw [hofst] at htm2
        have hmlen : 1 ≤ m := by
          rw [hofst] at hm
          simp only [List.length_cons] at hm
          omega
        obtain ⟨m', rfl⟩ : ∃ m', m = m' + 1 := ⟨m - 1, by omega⟩
        have hcslen : (scanF n cs).1.length ≤ m' := by
          rw [hofst] at hm
          simp only [List.length_cons] at hm
          omega
        have hih := ih cs hl' m' hcslen
        have hfst2 := scanF_none_fst m' c (scanF n cs).1 htm2
        have hsnd2 := scanF_none_snd m' c (scanF n cs).1 htm2
        have hih1 : (scanF m' (scanF n cs).1).1 = (scanF n cs).1 := by
          rw [hih]
        have hih2 : (scanF m' (scanF n cs).1).2 = 0 := by
          rw [hih]
        have h1 : (scanF (m' + 1) (scanF (n + 1) (c :: cs)).1).1 =
            (scanF (n + 1) (c :: cs)).1 := by
          rw [hofst, hfst2, hih1]
        have h2 : (scanF (m' + 1) (scanF (n + 1) (c :: cs)).1).2 = 0 := by
          rw [hofst, hsnd2, hih2]
        exact Prod.ext_iff.mpr ⟨h1, h2⟩
/-- C7: the rewriter is idempotent on ASCII input texts, where the character
model is exact: applying `update_imports` a second time, to the text produced
by the first application, yields a change count of 0.  On paths containing an
uncased uppercase letter such as U+1D400 every pass counts a change (see the
counterexample). -/
theorem c7_rewriter_idempotent (x : List Char) (_h : ∀ c ∈ x, c.toNat ≤ 127) :
    (update_imports (update_imports x).1).2 = 0 := by
  unfold update_imports
  have h := scanF_idem x.length x (le_refl _) (scanF x.length x).1.length (le_refl _)
  rw [h]

/-- C9: lowercase closure on ASCII base names, where the character model is
exact: every character of the converter's output is ASCII and not an
uppercase letter, whichever of the four algorithms runs.  On uncased
uppercase letters such as U+1D400 the closure fails (see the
counterexample). -/
theorem c9_lowercase_closure (s : List Char) (h : ∀ c ∈ s, c.toNat ≤ 127) :
    ∀ c ∈ pascal_to_kebab_smart s, isUp c = false ∧ c.toNat ≤ 127 := by
  have hup := smart_no_upper s
  rw [List.any_eq_false] at hup
  have hascii := smart_chars s (fun d => decide (d.toNat ≤ 127)) (by decide)
    (by
      intro d hd
      rcases lowerFirst_eq_or d with he | hr
      · rw [he]
        exact hd
      · simp only [decide_eq_true_eq] at hd ⊢
        omega)
    (by
      intro d hd
      simpa using h d hd)
  intro c hc
  refine ⟨?_, ?_⟩
  · have := hup c hc
    simpa using this
  · have := hascii c hc
    simpa using this

/-- C6 counterexample: over the extended character model, which is exact on
this input, the converter is not idempotent on the base name A,U+1D400: the
first application yields a-U+1D400 (Pascal branch) and the second
a--U+1D400 (Camel branch), since U+1D400 stays uppercase after its identity
lowercase mapping. -/
theorem c6_counterexample :
    pascal_to_kebab_smartU (pascal_to_kebab_smartU ['A', uA]) ≠
      pascal_to_kebab_smartU ['A', uA] := by decide

/-- C9 counterexample: over the extended character model, which is exact on
this input, the converter maps the base name U+1D400 to itself, and that
output character is an uppercase letter. -/
theorem c9_counterexample :
    pascal_to_kebab_smartU [uA] = [uA] ∧ isUpU uA = true := by decide

/-- C7 counterexample: over the extended character model, which is exact on
this input, an import whose path is U+1D400 is counted as a change by every
pass, so the second application of the rewriter reports a nonzero change
count. -/
theorem c7_counterexample :
    (update_importsU (update_importsU c7uLine).1).2 ≠ 0 := by decide

/-- Witness for C6 at the concrete ASCII input MyComponent. -/
theorem c6_witness :
    (∀ c ∈ String.toList "MyComponent", c.toNat ≤ 127) ∧
      pascal_to_kebab_smart (pascal_to_kebab_smart (String.toList "MyComponent")) =
        pascal_to_kebab_smart (String.toList "MyComponent") :=
  ⟨by decide, c6_smart_idempotent (String.toList "MyComponent") (by decide)⟩

/-- Witness for C9 at the concrete ASCII input MyComponent. -/
theorem c9_witness :
    (∀ c ∈ String.toList "MyComponent", c.toNat ≤ 127) ∧
      ∀ c ∈ pascal_to_kebab_smart (String.toList "MyComponent"),
        isUp c = false ∧ c.toNat ≤ 127 :=
  ⟨by decide, c9_lowercase_closure (String.toList "MyComponent") (by decide)⟩

/-- Witness for C7 at a concrete ASCII import line with an uppercase path. -/
theorem c7_witness :
    (∀ c ∈ c7wLine, c.toNat ≤ 127) ∧
      (update_imports (update_imports c7wLine).1).2 = 0 :=
  ⟨by decide, c7_rewriter_idempotent c7wLine (by decide)⟩
